import Mathlib

/-!
# GreedyGraphColoring: a shallow embedding of `src/main.cpp`

The class `ColorigProblem` is embedded as a record of its data members, and
its methods as functions on that record.

Conventions of the embedding.

* `std::vector<T>` is a `List T`, `std::unordered_set<size_t>` is a
  `Finset Nat`, `size_t` is `Nat`.  The only arithmetic on `size_t` is
  `++maxColor`, `node + 1` and `node1 - 1`.  The first two stay below the
  number of vertices plus one, so they cannot wrap; `node1 - 1` wraps exactly
  when `node1 = 0`, which is treated as an access past the end of the vector.
* Standing assumption on sizes: a vector has fewer than `2^31` elements.
  Under it the two conversions `static_cast<int>(lb)` and
  `static_cast<int>(rb)` of the bucket loops return `lb` and `rb`, and the
  embedding writes them as such.
* `v[i]` with `i` out of range is undefined behaviour in C++.  Every method
  that indexes a vector returns an `Option`, and an out-of-range access makes
  it `none`.
* `std::sort`, `std::shuffle` and `std::clock` belong to the C++ standard
  library.  They are parameters of the embedding (`StdLib`, `clock`), with the
  guarantees the standard gives: sorting with a strict weak ordering returns
  a sorted rearrangement of its range, shuffling returns a rearrangement.
  The order `std::sort` gives to elements that compare equal is not fixed by
  the standard; where a property depends on it, the `std::sort` of libstdc++
  is embedded (`gnuSort`, `gnuLib`).
* `timeSpent` (a `double` fed from `std::clock`) and `problemFile` take no
  part in the colouring and are left out, as are the printing and saving
  methods.
-/

namespace GreedyGraphColoring

/-! ## Data model -/

/-- The type `GraphType` of the source: one neighbour set for each vertex. -/
abbrev GraphType := List (Finset Nat)

/-- The enumeration `SortOrder` of the source. -/
inductive SortOrder where
  | None
  | ASC
  | DESC
  | DESC_SHUFFLE
  | ASC_SHUFFLE
  | SHUFFLE
  deriving DecidableEq, Repr

/-- The data members of class `ColorigProblem` that the colouring uses. -/
structure ColorigProblem where
  graph : GraphType
  indexes : List Nat
  colors : List Nat
  maxColor : Nat
  deriving DecidableEq

/-- A default-constructed `ColorigProblem`: empty vectors, `maxColor = 0`. -/
def ColorigProblem.init : ColorigProblem :=
  { graph := [], indexes := [], colors := [], maxColor := 0 }

/-! ## The standard library as a parameter -/

/-- The requirement `std::sort` puts on its comparator: a strict weak
ordering (irreflexive, transitive, with a transitive incomparability). -/
structure StrictWeakOrdering (comp : Nat → Nat → Bool) : Prop where
  irrefl : ∀ a, comp a a = false
  trans : ∀ a b c, comp a b = true → comp b c = true → comp a c = true
  incomp_trans : ∀ a b c, comp a b = false → comp b a = false →
    comp b c = false → comp c b = false → comp a c = false ∧ comp c a = false

/-- The library functions the program calls.  `sort comp v` is
`std::sort(v.begin(), v.end(), comp)`; `shuffle seed v` is
`std::shuffle(v.begin(), v.end(), std::default_random_engine(seed))`. -/
structure StdLib where
  sort : (Nat → Nat → Bool) → List Nat → List Nat
  shuffle : Nat → List Nat → List Nat
  sort_perm : ∀ comp v, StrictWeakOrdering comp → (sort comp v).Perm v
  sort_sorted : ∀ comp v, StrictWeakOrdering comp →
    (sort comp v).Pairwise (fun a b => comp b a = false)
  shuffle_perm : ∀ seed v, (shuffle seed v).Perm v

/-! ## `ReadFile` -/

/-- A line of the input file after the extraction operators have run:
a comment, `p <name> <numberOfNodes> <numberOfEdges>`, `e <node1> <node2>`,
or a line that starts with any other character. -/
inductive Line where
  | c
  | p (numberOfNodes numberOfEdges : Nat)
  | e (node1 node2 : Nat)
  | other
  deriving DecidableEq

/-- The call `v.resize(n)`, new elements being value-initialised to `d`. -/
def resize {α : Type} (v : List α) (n : Nat) (d : α) : List α :=
  v.take n ++ List.replicate (n - v.length) d

/-- The statement `graph[node1 - 1].insert(node2)`. -/
def insertEdge (graph : GraphType) (node1 node2 : Nat) : Option GraphType :=
  if node1 = 0 then none
  else
    match graph[node1 - 1]? with
    | none => none
    | some s => some (graph.set (node1 - 1) (insert node2 s))

/-- The body of the `while` loop of `ReadFile` for one line. -/
def readLine (self : ColorigProblem) : Line → Option ColorigProblem
  | Line.c => some self
  | Line.p numberOfNodes _ =>
    some { self with
      graph := resize self.graph numberOfNodes ∅
      colors := resize self.colors numberOfNodes 0
      indexes := resize self.indexes numberOfNodes 0 }
  | Line.e node1 node2 =>
    match insertEdge self.graph node1 node2 with
    | none => none
    | some g1 =>
      match insertEdge g1 node2 node1 with
      | none => none
      | some g2 => some { self with graph := g2 }
  | Line.other => some self

/-- The method `ReadFile`, on the lines of the file: the loop over the
lines, then `std::iota(indexes.begin(), indexes.end(), 0)`. -/
def ReadFile (self : ColorigProblem) (lines : List Line) : Option ColorigProblem :=
  match lines.foldlM readLine self with
  | none => none
  | some s => some { s with indexes := List.range s.indexes.length }

/-! ## `GreedyColoring` -/

/-- The value `graph[v].size()` read by the comparators of `std::sort`. -/
def degree (graph : GraphType) (v : Nat) : Nat :=
  (graph.getD v ∅).card

/-- The comparator of the `ASC` and `ASC_SHUFFLE` cases. -/
def compAsc (graph : GraphType) (left right : Nat) : Bool :=
  decide (degree graph left < degree graph right)

/-- The comparator of the `DESC` and `DESC_SHUFFLE` cases. -/
def compDesc (graph : GraphType) (left right : Nat) : Bool :=
  decide (degree graph left > degree graph right)

/-- The call `std::sort(indexes.begin(), indexes.end(), comp)` where `comp`
reads `graph[left]` and `graph[right]`: every element of the range has to
be an index into `graph`. -/
def sortIndexes (lib : StdLib) (graph : GraphType) (comp : Nat → Nat → Bool)
    (indexes : List Nat) : Option (List Nat) :=
  if indexes.all (fun v => decide (v < graph.length)) then some (lib.sort comp indexes)
  else none

/-- The call `std::shuffle(std::next(begin, lb), std::next(begin, rb), engine)`
on the vector `v`: the elements at the positions `lb ≤ p < rb` are
rearranged, the others stay.  The source converts `lb` and `rb` with
`static_cast<int>`, the identity below `2^31`. -/
def shuffleRange (lib : StdLib) (seed : Nat) (v : List Nat) (lb rb : Nat) : List Nat :=
  v.take lb ++ lib.shuffle seed ((v.drop lb).take (rb - lb)) ++ v.drop rb

/-- One iteration of the bucket loop of the `DESC_SHUFFLE` and `ASC_SHUFFLE`
cases; the state is `(indexes, lb)`.  The variable `rb` is assigned before
each use, so it is local to the iteration. -/
def bucketStep (lib : StdLib) (clock : Nat → Nat) (graph : GraphType)
    (st : List Nat × Nat) (i : Nat) : Option (List Nat × Nat) :=
  match st.1[st.2]? with
  | none => none
  | some a =>
    match graph[a]? with
    | none => none
    | some ga =>
      match st.1[i]? with
      | none => none
      | some b =>
        match graph[b]? with
        | none => none
        | some gb =>
          if ga.card ≠ gb.card then
            some (shuffleRange lib (clock i) st.1 st.2 i, i)
          else some st

/-- The loop `for (size_t i = 0; i < indexes.size(); ++i)` of the two bucket
shuffling cases, started with `lb = 0`. -/
def bucketShuffle (lib : StdLib) (clock : Nat → Nat) (graph : GraphType)
    (indexes : List Nat) : Option (List Nat) :=
  match (List.range indexes.length).foldlM (bucketStep lib clock graph) (indexes, 0) with
  | none => none
  | some st => some st.1

/-- The `switch (order)` of `GreedyColoring`: the new value of `indexes`.
`clock i` is the value `std::clock()` returns when the seed is taken in
iteration `i` of the bucket loop (`clock 0` for the full shuffle). -/
def orderIndexes (lib : StdLib) (clock : Nat → Nat) (order : SortOrder)
    (graph : GraphType) (indexes : List Nat) : Option (List Nat) :=
  match order with
  | SortOrder.ASC => sortIndexes lib graph (compAsc graph) indexes
  | SortOrder.DESC => sortIndexes lib graph (compDesc graph) indexes
  | SortOrder.DESC_SHUFFLE =>
    match sortIndexes lib graph (compDesc graph) indexes with
    | none => none
    | some sorted => bucketShuffle lib clock graph sorted
  | SortOrder.ASC_SHUFFLE =>
    match sortIndexes lib graph (compAsc graph) indexes with
    | none => none
    | some sorted => bucketShuffle lib clock graph sorted
  | SortOrder.SHUFFLE => some (lib.shuffle (clock 0) indexes)
  | SortOrder.None => some indexes

/-- One iteration of the inner loop `for (size_t node = 0; ...)`; the state
is `(colors, banned_nodes)`. -/
def fillStep (graph : GraphType) (maxColor : Nat) (st : List Nat × Finset Nat)
    (node : Nat) : Option (List Nat × Finset Nat) :=
  match st.1[node]? with
  | none => none
  | some c =>
    if c ≠ 0 ∨ node + 1 ∈ st.2 then some st
    else
      match graph[node]? with
      | none => none
      | some g => some (st.1.set node maxColor, st.2 ∪ g)

/-- One iteration of the outer loop `for (auto i : indexes)`; the state is
`(colors, maxColor)`. -/
def colorStep (graph : GraphType) (st : List Nat × Nat) (i : Nat) :
    Option (List Nat × Nat) :=
  match st.1[i]? with
  | none => none
  | some c =>
    if c ≠ 0 then some st
    else
      match graph[i]? with
      | none => none
      | some banned_nodes =>
        match (List.range graph.length).foldlM (fillStep graph (st.2 + 1))
            (st.1.set i (st.2 + 1), banned_nodes) with
        | none => none
        | some fin => some (fin.1, st.2 + 1)

/-- The colouring loop of `GreedyColoring` (lines 160 to 175). -/
def colorLoop (graph : GraphType) (indexes : List Nat) (colors : List Nat)
    (maxColor : Nat) : Option (List Nat × Nat) :=
  indexes.foldlM (colorStep graph) (colors, maxColor)

/-- The method `GreedyColoring`: reorder `indexes`, then colour. -/
def GreedyColoring (lib : StdLib) (clock : Nat → Nat) (order : SortOrder)
    (self : ColorigProblem) : Option ColorigProblem :=
  match orderIndexes lib clock order self.graph self.indexes with
  | none => none
  | some indexes =>
    match colorLoop self.graph indexes self.colors self.maxColor with
    | none => none
    | some res =>
      some { self with indexes := indexes, colors := res.1, maxColor := res.2 }

/-- The method `getMaxColor`. -/
def getMaxColor (self : ColorigProblem) : Nat := self.maxColor

/-- The method `resetResults`. -/
def resetResults (self : ColorigProblem) : ColorigProblem :=
  { self with
    maxColor := 0
    colors := List.replicate self.colors.length 0
    indexes := List.range self.indexes.length }

/-! ## The trial loop of `main` -/

/-- The attempts `main` makes for one instance, in order: the three entries
of `sorts`, then 100 times `DESC_SHUFFLE`, 70 times `ASC_SHUFFLE` and 100
times `SHUFFLE`. -/
def schedule : List SortOrder :=
  [SortOrder.None, SortOrder.ASC, SortOrder.DESC]
    ++ List.replicate 100 SortOrder.DESC_SHUFFLE
    ++ List.replicate 70 SortOrder.ASC_SHUFFLE
    ++ List.replicate 100 SortOrder.SHUFFLE

/-- The body shared by the four loops of `main`: `GreedyColoring(order)`,
`res = std::min(res, getMaxColor())`, `resetResults()`.  The state is
`(coloringProblem, res)`. -/
def attempt (lib : StdLib) (clock : Nat → Nat) (order : SortOrder)
    (st : ColorigProblem × Nat) : Option (ColorigProblem × Nat) :=
  match GreedyColoring lib clock order st.1 with
  | none => none
  | some p => some (resetResults p, min st.2 (getMaxColor p))

/-- The attempts for the orders of a list, one after the other; `clocks k`
is the clock of attempt number `k`, and `k` is the number of the first
attempt of the list. -/
def runAttempts (lib : StdLib) (clocks : Nat → Nat → Nat) :
    Nat → List SortOrder → ColorigProblem × Nat → Option (ColorigProblem × Nat)
  | _, [], st => some st
  | k, order :: rest, st =>
    match attempt lib (clocks k) order st with
    | none => none
    | some st1 => runAttempts lib clocks (k + 1) rest st1

/-- The value of `res` after the first `k` attempts of the schedule, for a
problem as `ReadFile` left it; `res` starts at `999`. -/
def resAfter (lib : StdLib) (clocks : Nat → Nat → Nat) (p : ColorigProblem) (k : Nat) :
    Option Nat :=
  (runAttempts lib clocks 0 (schedule.take k) (p, 999)).map Prod.snd

/-- The value of `res` that `main` writes for one instance (lines 228 to
257). -/
def trialLoop (lib : StdLib) (clocks : Nat → Nat → Nat) (p : ColorigProblem) : Option Nat :=
  (runAttempts lib clocks 0 schedule (p, 999)).map Prod.snd

/-! ## A concrete standard library -/

/-- An instance of the library: insertion sort, and a rotation by the seed
as the shuffle. -/
def insertionLib : StdLib where
  sort := fun comp v => List.insertionSort (fun a b => comp b a = false) v
  shuffle := fun seed v => v.rotate seed
  sort_perm := fun comp v _ => List.perm_insertionSort (fun a b => comp b a = false) v
  sort_sorted := by
    intro comp v h
    have hasymm : ∀ a b, comp a b = true → comp b a = false := by
      intro a b hab
      cases hba : comp b a
      · rfl
      · have := h.trans a b a hab hba
        rw [h.irrefl a] at this
        exact absurd this (by simp)
    haveI : IsTotal Nat (fun a b => comp b a = false) := by
      refine ⟨fun a b => ?_⟩
      cases hba : comp b a
      · exact Or.inl rfl
      · exact Or.inr (hasymm b a hba)
    haveI : IsTrans Nat (fun a b => comp b a = false) := by
      refine ⟨fun a b c hab hbc => ?_⟩
      show comp c a = false
      cases hca : comp c a
      · rfl
      · exfalso
        cases h1 : comp a b
        · cases h2 : comp b c
          · have := (h.incomp_trans a b c h1 hab h2 hbc).2
            rw [hca] at this
            exact absurd this (by simp)
          · have := h.trans b c a h2 hca
            rw [hab] at this
            exact absurd this (by simp)
        · have := h.trans c a b hca h1
          rw [hbc] at this
          exact absurd this (by simp)
    exact List.sorted_insertionSort (fun a b => comp b a = false) v
  shuffle_perm := fun seed v => List.rotate_perm v seed


/-! ## Vocabulary of the specification -/

/-- The colour `colors[v]`, read as `0` (uncoloured) past the end. -/
def colorOf (colors : List Nat) (v : Nat) : Nat := colors.getD v 0

/-- The set `graph[a]` holds vertex `b`, which it stores as `b + 1`. -/
def Adj (graph : GraphType) (a b : Nat) : Prop := b + 1 ∈ graph.getD a ∅

/-- The adjacency is symmetric in its own encoding. -/
def Symmetric (graph : GraphType) : Prop := ∀ a b, Adj graph a b → Adj graph b a

/-- The invariant of the colouring loop, `done` being the part of `indexes`
already visited and `st` the pair `(colors, maxColor)`: the vectors have
one entry for each vertex, no colour exceeds `maxColor`, the visited
vertices are coloured, every colour up to `maxColor` is in use, and (for a
symmetric graph) two coloured vertices joined by an edge differ in colour. -/
def ColorInv (g : GraphType) (done : List Nat) (st : List Nat × Nat) : Prop :=
  st.1.length = g.length ∧
  (∀ v, colorOf st.1 v ≤ st.2) ∧
  (∀ i ∈ done, colorOf st.1 i ≠ 0) ∧
  (∀ k, 1 ≤ k → k ≤ st.2 → ∃ v, colorOf st.1 v = k) ∧
  (Symmetric g →
    ∀ x y, colorOf st.1 x ≠ 0 → colorOf st.1 x = colorOf st.1 y → x ≠ y → ¬ Adj g x y)

/-- The lines of a well-formed file: the problem line, then one `e` line
for each edge of the list. -/
def edgeFile (N M : Nat) (edges : List (Nat × Nat)) : List Line :=
  Line.p N M :: edges.map (fun e => Line.e e.1 e.2)

/-- Both endpoints of every edge are 1-based vertex ids, in `1..N`. -/
def EdgesInRange (N : Nat) (edges : List (Nat × Nat)) : Prop :=
  ∀ e ∈ edges, 1 ≤ e.1 ∧ e.1 ≤ N ∧ 1 ≤ e.2 ∧ e.2 ≤ N

/-- The state `ReadFile` leaves, and `resetResults` restores, for the graph
`g`: `indexes = 0..N-1`, all colours `0`, `maxColor = 0`. -/
def fresh (g : GraphType) : ColorigProblem :=
  { graph := g
    indexes := List.range g.length
    colors := List.replicate g.length 0
    maxColor := 0 }

/-- Any two distinct vertices are adjacent. -/
def Complete (graph : GraphType) : Prop :=
  ∀ u v, u < graph.length → v < graph.length → u ≠ v → Adj graph u v

/-- The edges `a b` with `1 ≤ a < b ≤ n`, the edge list of the complete graph
on `n` vertices. -/
def completeEdges (n : Nat) : List (Nat × Nat) :=
  ((List.range n).map (fun a =>
    ((List.range n).filter (fun b => decide (a < b))).map (fun b => (a + 1, b + 1)))).flatten

/-- The colour count of one attempt on the graph `g`: the value of
`getMaxColor()` after `GreedyColoring(order)` from the fresh state. -/
def colorCount (lib : StdLib) (clock : Nat → Nat) (order : SortOrder) (g : GraphType) : Nat :=
  match GreedyColoring lib clock order (fresh g) with
  | none => 0
  | some s => getMaxColor s

/-- The colour counts of the attempts for a list of orders, attempt number
`k` being the first. -/
def colorCounts (lib : StdLib) (clocks : Nat → Nat → Nat) (g : GraphType) :
    Nat → List SortOrder → List Nat
  | _, [] => []
  | k, order :: rest =>
    colorCount lib (clocks k) order g :: colorCounts lib clocks g (k + 1) rest

/-- The earliest position of `indexes` that holds a vertex of colour `k`
(the length of `indexes` when there is none). -/
def firstPos (indexes colors : List Nat) (k : Nat) : Nat :=
  indexes.findIdx (fun v => decide (colorOf colors v = k))

/-- The second invariant of the colouring loop: every colour `k` in
`1..maxColor` was opened at a position `p` of the visited part `done`; the
vertices before `p` have smaller colours; and every vertex that is still
uncoloured, or has a larger colour, is stored in the neighbour set of a
vertex `w` of colour `k` which is the opener `done[p]` or has a smaller id. -/
def OpenInv (g : GraphType) (done : List Nat) (st : List Nat × Nat) : Prop :=
  ∀ k, 1 ≤ k → k ≤ st.2 →
    ∃ p, p < done.length ∧ colorOf st.1 (done.getD p 0) = k ∧
      (∀ q, q < p → colorOf st.1 (done.getD q 0) < k) ∧
      (∀ u, u < g.length → (colorOf st.1 u = 0 ∨ k < colorOf st.1 u) →
        ∃ w, colorOf st.1 w = k ∧ u + 1 ∈ g.getD w ∅ ∧ (w = done.getD p 0 ∨ w < u))

/-- The largest `graph[v].size()` over the vertices (`0` without vertices). -/
def maxDegree (g : GraphType) : Nat :=
  (g.map Finset.card).foldr max 0

/-- The colours are opened in the order of `indexes`: its first vertex has
colour `1`, and for every colour `k` in `1..maxColor-1` the earliest position
holding a vertex of colour `k` lies strictly before the earliest position
holding a vertex of colour `k + 1`; both positions exist. -/
def OpenedInOrder (indexes colors : List Nat) (maxColor : Nat) : Prop :=
  colorOf colors (indexes.getD 0 0) = 1 ∧
  ∀ k, 1 ≤ k → k < maxColor →
    firstPos indexes colors k < firstPos indexes colors (k + 1) ∧
    firstPos indexes colors (k + 1) < indexes.length ∧
    colorOf colors (indexes.getD (firstPos indexes colors k) 0) = k ∧
    colorOf colors (indexes.getD (firstPos indexes colors (k + 1)) 0) = k + 1

/-- Every colour class is maximal and filled in id order: a vertex `u` of
colour `c` has, for every colour `k` with `1 ≤ k < c`, a neighbour `w` of
colour `k` (each of `u`, `w` is stored in the set of the other) which is the
earliest vertex of colour `k` in `indexes` or has a smaller id than `u`. -/
def ClassesMaximal (g : GraphType) (indexes colors : List Nat) : Prop :=
  ∀ u k, u < g.length → 1 ≤ k → k < colorOf colors u →
    ∃ w, w < g.length ∧ colorOf colors w = k ∧ Adj g u w ∧ Adj g w u ∧
      (w = indexes.getD (firstPos indexes colors k) 0 ∨ w < u)

/-! ## `std::sort` as libstdc++ implements it

The functions below follow `bits/stl_algo.h` of libstdc++ (GCC 12): a range
of at most 16 elements is sorted by insertion, a longer one is first
partitioned around the median of three elements (introsort).  A vector is a
`List Nat`, an iterator a position in it; the insertion routines, which only
walk down from the element they insert, take the range in front of it as a
list. -/

/-- A comparison `comp(i, j)` of the elements two iterators point to. -/
def compAt (comp : Nat → Nat → Bool) (v : List Nat) (i j : Nat) : Option Bool :=
  match v[i]? with
  | none => none
  | some x =>
    match v[j]? with
    | none => none
    | some y => some (comp x y)

/-- The call `std::iter_swap(i, j)`. -/
def iterSwap (v : List Nat) (i j : Nat) : Option (List Nat) :=
  match v[i]? with
  | none => none
  | some x =>
    match v[j]? with
    | none => none
    | some y => some ((v.set i y).set j x)

/-- The function `__move_median_to_first(result, a, b, c, comp)` of
`bits/stl_algo.h`. -/
def moveMedianToFirst (comp : Nat → Nat → Bool) (v : List Nat) (result a b c : Nat) :
    Option (List Nat) :=
  match compAt comp v a b with
  | none => none
  | some true =>
    match compAt comp v b c with
    | none => none
    | some true => iterSwap v result b
    | some false =>
      match compAt comp v a c with
      | none => none
      | some true => iterSwap v result c
      | some false => iterSwap v result a
  | some false =>
    match compAt comp v a c with
    | none => none
    | some true => iterSwap v result a
    | some false =>
      match compAt comp v b c with
      | none => none
      | some true => iterSwap v result c
      | some false => iterSwap v result b

/-- The loop `while (comp(first, pivot)) ++first;`, with the number of steps
left as first argument. -/
def scanUp (comp : Nat → Nat → Bool) (v : List Nat) (pivot : Nat) : Nat → Nat → Option Nat
  | 0, _ => none
  | fuel + 1, first =>
    match compAt comp v first pivot with
    | none => none
    | some true => scanUp comp v pivot fuel (first + 1)
    | some false => some first

/-- The loop `while (comp(pivot, last)) --last;`. -/
def scanDown (comp : Nat → Nat → Bool) (v : List Nat) (pivot : Nat) : Nat → Nat → Option Nat
  | 0, _ => none
  | fuel + 1, last =>
    match compAt comp v pivot last with
    | none => none
    | some true => if last = 0 then none else scanDown comp v pivot fuel (last - 1)
    | some false => some last

/-- The function `__unguarded_partition(first, last, pivot, comp)`: the cut
and the vector. -/
def unguardedPartition (comp : Nat → Nat → Bool) (pivot : Nat) :
    Nat → List Nat → Nat → Nat → Option (Nat × List Nat)
  | 0, _, _, _ => none
  | fuel + 1, v, first, last =>
    match scanUp comp v pivot (v.length + 1) first with
    | none => none
    | some first1 =>
      if last = 0 then none
      else
        match scanDown comp v pivot (v.length + 1) (last - 1) with
        | none => none
        | some last1 =>
          if first1 < last1 then
            match iterSwap v first1 last1 with
            | none => none
            | some v1 => unguardedPartition comp pivot fuel v1 (first1 + 1) last1
          else some (first1, v)

/-- The function `__unguarded_partition_pivot(first, last, comp)`. -/
def unguardedPartitionPivot (comp : Nat → Nat → Bool) (v : List Nat) (first last : Nat) :
    Option (Nat × List Nat) :=
  match moveMedianToFirst comp v first (first + 1) (first + (last - first) / 2) (last - 1) with
  | none => none
  | some v1 => unguardedPartition comp first (v1.length + 1) v1 (first + 1) last

/-- The function `__introsort_loop(first, last, depth_limit, comp)`; the
first argument is `depth_limit`.  The heap sort it falls back to when
`depth_limit` reaches `0` is not embedded: the result is `none` there. -/
def introsortLoop (comp : Nat → Nat → Bool) : Nat → List Nat → Nat → Nat → Option (List Nat)
  | 0, v, first, last => if last - first > 16 then none else some v
  | depth + 1, v, first, last =>
    if last - first > 16 then
      match unguardedPartitionPivot comp v first last with
      | none => none
      | some (cut, v1) =>
        match introsortLoop comp depth v1 cut last with
        | none => none
        | some v2 => introsortLoop comp depth v2 first cut
    else some v

/-- The function `__unguarded_linear_insert(last, comp)` for the value `val`
at `last`: `before` holds the elements in front of `last`, the nearest first,
and `moved` the elements already moved one place up.  The result is the range
up to `last` with `val` in its place. -/
def unguardedLinearInsert (comp : Nat → Nat → Bool) (val : Nat) :
    List Nat → List Nat → Option (List Nat)
  | [], _ => none
  | e :: before, moved =>
    if comp val e then unguardedLinearInsert comp val before (e :: moved)
    else some ((e :: before).reverse ++ val :: moved)

/-- One iteration of the loop of `__insertion_sort`: `sorted` is the range in
front of `i`, `val` the element at `i`. -/
def insertionStep (comp : Nat → Nat → Bool) (sorted : List Nat) (val : Nat) :
    Option (List Nat) :=
  match sorted with
  | [] => none
  | x :: rest =>
    if comp val x then some (val :: x :: rest)
    else unguardedLinearInsert comp val (x :: rest).reverse []

/-- The function `__insertion_sort(first, last, comp)` on the range `v`. -/
def gnuInsertionSort (comp : Nat → Nat → Bool) (v : List Nat) : Option (List Nat) :=
  match v with
  | [] => some []
  | x :: rest => rest.foldlM (insertionStep comp) [x]

/-- The function `__unguarded_insertion_sort(first, last, comp)`: `sorted` is
the range in front of `first`, `rest` the range from `first` to `last`. -/
def unguardedInsertionSort (comp : Nat → Nat → Bool) (sorted rest : List Nat) :
    Option (List Nat) :=
  rest.foldlM (fun s val => unguardedLinearInsert comp val s.reverse []) sorted

/-- The function `__final_insertion_sort(first, last, comp)`. -/
def finalInsertionSort (comp : Nat → Nat → Bool) (v : List Nat) : Option (List Nat) :=
  if v.length > 16 then
    match gnuInsertionSort comp (v.take 16) with
    | none => none
    | some s => unguardedInsertionSort comp s (v.drop 16)
  else gnuInsertionSort comp v

/-- The value `std::__lg(n)`, the position of the highest set bit; the first
argument bounds the number of halvings. -/
def lgAux : Nat → Nat → Nat
  | 0, _ => 0
  | fuel + 1, n => if n < 2 then 0 else lgAux fuel (n / 2) + 1

/-- The function `std::__sort(first, last, comp)` that `std::sort` calls. -/
def gnuSort (comp : Nat → Nat → Bool) (v : List Nat) : Option (List Nat) :=
  match v with
  | [] => some []
  | _ :: _ =>
    match introsortLoop comp (lgAux v.length v.length * 2) v 0 v.length with
    | none => none
    | some v1 => finalInsertionSort comp v1

/-- The test that `l` is what the standard asks of `std::sort(v, comp)`: a
rearrangement of `v` in which no element is `comp`-smaller than an earlier
one. -/
def SortedRearrangement (comp : Nat → Nat → Bool) (v l : List Nat) : Prop :=
  l.Perm v ∧ l.Pairwise (fun a b => comp b a = false)

instance decidableSortedRearrangement (comp : Nat → Nat → Bool) (v l : List Nat) :
    Decidable (SortedRearrangement comp v l) :=
  inferInstanceAs (Decidable (l.Perm v ∧ l.Pairwise (fun a b => comp b a = false)))

/-- The library `lib` with its sort replaced by `gnuSort`, the `std::sort` of
libstdc++.  The guarantees of `StdLib` are kept by construction: where
`gnuSort` gives no result (the heap sort that is not embedded) or a result
that fails the test `SortedRearrangement`, the sort of `lib` is used; the
theorems about `gnuLib` say for which inputs the sort is `gnuSort`. -/
def gnuLib (lib : StdLib) : StdLib where
  sort := fun comp v =>
    match gnuSort comp v with
    | none => lib.sort comp v
    | some l => if SortedRearrangement comp v l then l else lib.sort comp v
  shuffle := lib.shuffle
  sort_perm := by
    intro comp v h
    dsimp only
    split
    · exact lib.sort_perm comp v h
    · split
      · rename_i hc
        exact hc.1
      · exact lib.sort_perm comp v h
  sort_sorted := by
    intro comp v h
    dsimp only
    split
    · exact lib.sort_sorted comp v h
    · split
      · rename_i hc
        exact hc.2
      · exact lib.sort_sorted comp v h
  shuffle_perm := lib.shuffle_perm

/-- Two vertices of equal degree occur in `l` in ascending order of their
ids. -/
def TiesAscending (g : GraphType) (l : List Nat) : Prop :=
  ∀ a b, a < b → b < g.length → degree g a = degree g b → [a, b].Sublist l

/-- The state invariant of `ColorigProblem`: `graph`, `colors` and `indexes`
have the same length `N`, and `indexes` is a rearrangement of `0..N-1`. -/
def StateInv (s : ColorigProblem) : Prop :=
  s.colors.length = s.graph.length ∧ s.indexes.length = s.graph.length ∧
  s.indexes.Perm (List.range s.graph.length)


/-! ## Loops in the `Option` monad -/

theorem foldlM_inv {σ α : Type} (step : σ → α → Option σ) (Inv : List α → σ → Prop) :
    ∀ (l done : List α) (s : σ), Inv done s →
      (∀ d x rest t, done ++ l = d ++ x :: rest → Inv d t →
        ∃ t1, step t x = some t1 ∧ Inv (d ++ [x]) t1) →
      ∃ t, l.foldlM step s = some t ∧ Inv (done ++ l) t := by
  intro l
  induction l with
  | nil =>
    intro done s h _
    exact ⟨s, rfl, by simpa using h⟩
  | cons x l ih =>
    intro done s h hstep
    obtain ⟨t1, ht1, hI1⟩ := hstep done x l s rfl h
    have hrec := ih (done ++ [x]) t1 hI1 (by
      intro d y rest t hd hI
      exact hstep d y rest t (by simpa using hd) hI)
    obtain ⟨t, ht, hI⟩ := hrec
    refine ⟨t, ?_, by simpa using hI⟩
    simp [List.foldlM_cons, ht1, ht]

theorem forRange_inv {σ : Type} (step : σ → Nat → Option σ) (Inv : Nat → σ → Prop)
    (n : Nat) (s : σ) (h0 : Inv 0 s)
    (hstep : ∀ k t, k < n → Inv k t → ∃ t1, step t k = some t1 ∧ Inv (k + 1) t1) :
    ∃ t, (List.range n).foldlM step s = some t ∧ Inv n t := by
  induction n with
  | zero => exact ⟨s, rfl, h0⟩
  | succ n ih =>
    obtain ⟨t, ht, hI⟩ := ih (fun k t hk => hstep k t (Nat.lt_succ_of_lt hk))
    obtain ⟨t1, ht1, hI1⟩ := hstep n t (Nat.lt_succ_self n) hI
    refine ⟨t1, ?_, hI1⟩
    simp [List.range_succ, List.foldlM_append, ht, ht1]

/-! ## Reading and writing vector elements -/

theorem getD_set {α : Type} (l : List α) (i v : Nat) (m d : α) :
    (l.set i m).getD v d = if v = i ∧ i < l.length then m else l.getD v d := by
  simp only [List.getD_eq_getElem?_getD, List.getElem?_set]
  by_cases h : i = v
  · subst h
    by_cases hl : i < l.length
    · simp [hl]
    · simp [hl, List.getElem?_eq_none (Nat.le_of_not_lt hl)]
  · have h2 : ¬ v = i := fun e => h e.symm
    simp [h, h2]

theorem getD_ne_zero_lt (cs : List Nat) (v : Nat) (h : cs.getD v 0 ≠ 0) : v < cs.length := by
  by_contra hlt
  apply h
  simp [List.getD_eq_getElem?_getD, List.getElem?_eq_none (Nat.le_of_not_lt hlt)]

theorem getElem_opt_of_lt {α : Type} (l : List α) (v : Nat) (d : α) (h : v < l.length) :
    l[v]? = some (l.getD v d) := by
  simp [List.getD_eq_getElem?_getD, List.getElem?_eq_getElem h]

theorem adj_lt (g : GraphType) (a b : Nat) (h : Adj g a b) : a < g.length := by
  by_contra hlt
  unfold Adj at h
  simp [List.getD_eq_getElem?_getD, List.getElem?_eq_none (Nat.le_of_not_lt hlt)] at h

/-! ## The inner loop -/

theorem fill_spec (g : GraphType) (m : Nat) (hm : m ≠ 0) (cs1 : List Nat) (b0 : Finset Nat)
    (hlen : cs1.length = g.length)
    (hb0 : ∀ x w, cs1.getD x 0 = m → w ∈ g.getD x ∅ → w ∈ b0)
    (hind0 : ∀ x y, cs1.getD x 0 = m → cs1.getD y 0 = m → x ≠ y → ¬ Adj g x y) :
    ∃ fin, (List.range g.length).foldlM (fillStep g m) (cs1, b0) = some fin ∧
      fin.1.length = g.length ∧
      (∀ v, fin.1.getD v 0 = cs1.getD v 0 ∨ (cs1.getD v 0 = 0 ∧ fin.1.getD v 0 = m)) ∧
      (Symmetric g →
        ∀ x y, fin.1.getD x 0 = m → fin.1.getD y 0 = m → x ≠ y → ¬ Adj g x y) := by
  have key := forRange_inv (fillStep g m)
    (fun _ (t : List Nat × Finset Nat) =>
      t.1.length = g.length ∧
      (∀ v, t.1.getD v 0 = cs1.getD v 0 ∨ (cs1.getD v 0 = 0 ∧ t.1.getD v 0 = m)) ∧
      (∀ x w, t.1.getD x 0 = m → w ∈ g.getD x ∅ → w ∈ t.2) ∧
      (Symmetric g →
        ∀ x y, t.1.getD x 0 = m → t.1.getD y 0 = m → x ≠ y → ¬ Adj g x y))
    g.length (cs1, b0)
    ⟨hlen, fun v => Or.inl rfl, hb0, fun _ => hind0⟩
    (by
      rintro k ⟨cs, b⟩ hk ⟨hl, hch, hban, hind⟩
      have hkc : k < cs.length := by simpa [hl] using hk
      have e1 : cs[k]? = some (cs.getD k 0) := getElem_opt_of_lt cs k 0 hkc
      have e2 : g[k]? = some (g.getD k ∅) := getElem_opt_of_lt g k ∅ hk
      simp only at hl hch hban hind
      by_cases hcond : cs.getD k 0 ≠ 0 ∨ k + 1 ∈ b
      · refine ⟨(cs, b), ?_, hl, hch, hban, hind⟩
        simp only [fillStep, e1, if_pos hcond]
      · have hk0 : cs.getD k 0 = 0 := by
          by_contra h0
          exact hcond (Or.inl h0)
        have hkb : k + 1 ∉ b := fun h0 => hcond (Or.inr h0)
        refine ⟨(cs.set k m, b ∪ g.getD k ∅), ?_, ?_, ?_, ?_, ?_⟩
        · simp only [fillStep, e1, if_neg hcond, e2]
        · simpa using hl
        · intro v
          simp only [getD_set]
          by_cases hv : v = k
          · subst hv
            rcases hch v with h1 | h1
            · right
              exact ⟨by rw [← h1, hk0], by simp [hkc]⟩
            · exact absurd (h1.2.symm.trans hk0) hm
          · simpa [hv] using hch v
        · intro x w hx hw
          simp only [getD_set] at hx
          simp only [Finset.mem_union]
          by_cases hxk : x = k
          · subst hxk
            exact Or.inr hw
          · simp only [hxk, false_and, if_false] at hx
            exact Or.inl (hban x w hx hw)
        · intro hsym x y hx hy hxy
          simp only [getD_set] at hx hy
          by_cases hxk : x = k
          · subst hxk
            have hyk : ¬ y = x := fun e => hxy e.symm
            simp only [hyk, false_and, if_false] at hy
            intro hadj
            exact hkb (hban y (x + 1) hy (hsym x y hadj))
          · simp only [hxk, false_and, if_false] at hx
            by_cases hyk : y = k
            · subst hyk
              intro hadj
              exact hkb (hban x (y + 1) hx hadj)
            · simp only [hyk, false_and, if_false] at hy
              exact hind hsym x y hx hy hxy)
  obtain ⟨fin, hfin, h1, h2, _, h4⟩ := key
  exact ⟨fin, hfin, h1, h2, h4⟩

/-! ## The colouring loop -/

theorem colorStep_spec (g : GraphType) (done : List Nat) (st : List Nat × Nat) (i : Nat)
    (hi : i < g.length) (hI : ColorInv g done st) :
    ∃ t1, colorStep g st i = some t1 ∧ ColorInv g (done ++ [i]) t1 := by
  obtain ⟨cs, m⟩ := st
  obtain ⟨hl, hle, hdone, hused, hval⟩ := hI
  simp only [colorOf] at hl hle hdone hused hval
  have hic : i < cs.length := by simpa [hl] using hi
  have e1 : cs[i]? = some (cs.getD i 0) := getElem_opt_of_lt cs i 0 hic
  have e2 : g[i]? = some (g.getD i ∅) := getElem_opt_of_lt g i ∅ hi
  by_cases hcol : cs.getD i 0 ≠ 0
  · refine ⟨(cs, m), ?_, hl, hle, ?_, hused, hval⟩
    · simp only [colorStep, e1, if_pos hcol]
    · intro j hj
      rcases List.mem_append.1 hj with h | h
      · exact hdone j h
      · have : j = i := by simpa using h
        subst this
        exact hcol
  · have hi0 : cs.getD i 0 = 0 := by
      by_contra h0
      exact hcol h0
    have hset : ∀ v, (cs.set i (m + 1)).getD v 0 = if v = i then m + 1 else cs.getD v 0 := by
      intro v
      rw [getD_set]
      by_cases hv : v = i
      · simp [hv, hic]
      · simp [hv]
    have honly : ∀ x, (cs.set i (m + 1)).getD x 0 = m + 1 → x = i := by
      intro x hx
      rw [hset] at hx
      by_contra hne
      rw [if_neg hne] at hx
      have := hle x
      omega
    obtain ⟨fin, hfin, hfl, hch, hind⟩ := fill_spec g (m + 1) (Nat.succ_ne_zero m)
      (cs.set i (m + 1)) (g.getD i ∅) (by simpa using hl)
      (by
        intro x w hx hw
        rw [honly x hx] at hw
        exact hw)
      (by
        intro x y hx hy hxy
        exact absurd ((honly x hx).trans (honly y hy).symm) hxy)
    have hA : ∀ v, fin.1.getD v 0 = m + 1 ∨ fin.1.getD v 0 = cs.getD v 0 := by
      intro v
      rcases hch v with h | h
      · rw [hset] at h
        by_cases hv : v = i
        · rw [if_pos hv] at h
          exact Or.inl h
        · rw [if_neg hv] at h
          exact Or.inr h
      · exact Or.inl h.2
    have hB : ∀ v, cs.getD v 0 ≠ 0 → fin.1.getD v 0 = cs.getD v 0 := by
      intro v hv
      have hvi : v ≠ i := by
        intro e
        rw [e] at hv
        exact hv hi0
      rcases hch v with h | h
      · rw [hset, if_neg hvi] at h
        exact h
      · rw [hset, if_neg hvi] at h
        exact absurd h.1 hv
    have hC : fin.1.getD i 0 = m + 1 := by
      rcases hch i with h | h
      · rw [hset, if_pos rfl] at h
        exact h
      · exact h.2
    refine ⟨(fin.1, m + 1), ?_, hfl, ?_, ?_, ?_, ?_⟩
    · simp only [colorStep, e1, if_neg hcol, e2, hfin]
    · intro v
      simp only [colorOf]
      rcases hA v with h | h
      · omega
      · have := hle v
        omega
    · intro j hj
      simp only [colorOf]
      rcases List.mem_append.1 hj with h | h
      · rw [hB j (hdone j h)]
        exact hdone j h
      · have : j = i := by simpa using h
        subst this
        omega
    · intro k hk1 hk2
      simp only [colorOf]
      by_cases hk : k = m + 1
      · exact ⟨i, by rw [hC, hk]⟩
      · obtain ⟨v, hv⟩ := hused k hk1 (by
          simp only at hk2
          omega)
        refine ⟨v, ?_⟩
        rw [hB v (by omega)]
        exact hv
    · intro hsym x y hx hxy hne
      simp only [colorOf] at hx hxy
      rcases hA x with h | h
      · exact hind hsym x y h (by rw [← hxy, h]) hne
      · have hxm : fin.1.getD x 0 ≠ m + 1 := by
          have := hle x
          omega
        have hy : fin.1.getD y 0 = cs.getD y 0 := by
          rcases hA y with h2 | h2
          · exact absurd (hxy.trans h2) hxm
          · exact h2
        exact hval hsym x y (by rw [← h]; exact hx) (by rw [← h, ← hy]; exact hxy) hne

theorem colorLoop_spec (g : GraphType) (indexes : List Nat) (st : List Nat × Nat)
    (hidx : ∀ i ∈ indexes, i < g.length) (hI : ColorInv g [] st) :
    ∃ t, colorLoop g indexes st.1 st.2 = some t ∧ ColorInv g indexes t := by
  have key := foldlM_inv (colorStep g) (ColorInv g) indexes [] st hI (by
    intro d x rest t hd hInv
    have hx : x ∈ indexes := by
      have : x ∈ [] ++ indexes := by
        rw [hd]
        simp
      simpa using this
    exact colorStep_spec g d t x (hidx x hx) hInv)
  simpa [colorLoop] using key

theorem colorInv_fresh (g : GraphType) : ColorInv g [] (List.replicate g.length 0, 0) := by
  have h0 : ∀ v, (List.replicate g.length 0).getD v 0 = 0 := by
    intro v
    simp only [List.getD_eq_getElem?_getD, List.getElem?_replicate]
    split <;> rfl
  refine ⟨by simp, ?_, ?_, ?_, ?_⟩
  · intro v
    simp [colorOf, h0]
  · intro i hi
    simp at hi
  · intro k hk1 hk2
    simp only at hk2
    omega
  · intro _ x y hx
    simp [colorOf, h0] at hx

/-! ## The ordering step -/

theorem compAsc_strictWeak (g : GraphType) : StrictWeakOrdering (compAsc g) := by
  refine ⟨?_, ?_, ?_⟩
  · intro a
    simp [compAsc]
  · intro a b d
    simp only [compAsc, decide_eq_true_eq]
    omega
  · intro a b d
    simp only [compAsc, decide_eq_false_iff_not]
    omega

theorem compDesc_strictWeak (g : GraphType) : StrictWeakOrdering (compDesc g) := by
  refine ⟨?_, ?_, ?_⟩
  · intro a
    simp [compDesc]
  · intro a b d
    simp only [compDesc, decide_eq_true_eq]
    omega
  · intro a b d
    simp only [compDesc, decide_eq_false_iff_not]
    omega

theorem sortIndexes_spec (lib : StdLib) (g : GraphType) (comp : Nat → Nat → Bool)
    (indexes : List Nat) (hidx : ∀ i ∈ indexes, i < g.length) :
    sortIndexes lib g comp indexes = some (lib.sort comp indexes) := by
  have hall : indexes.all (fun v => decide (v < g.length)) = true := by
    rw [List.all_eq_true]
    intro x hx
    simpa using hidx x hx
  simp [sortIndexes, hall]

theorem map_eq_of_perm_const {f : Nat → Nat} {d : Nat} {l1 l2 : List Nat}
    (hp : l1.Perm l2) (hc : ∀ x ∈ l2, f x = d) : l1.map f = l2.map f := by
  have h1 : l1.map f = List.replicate l1.length d := by
    rw [List.eq_replicate_iff]
    refine ⟨by simp, ?_⟩
    intro b hb
    obtain ⟨x, hx, rfl⟩ := List.mem_map.1 hb
    exact hc x (hp.subset hx)
  have h2 : l2.map f = List.replicate l2.length d := by
    rw [List.eq_replicate_iff]
    refine ⟨by simp, ?_⟩
    intro b hb
    obtain ⟨x, hx, rfl⟩ := List.mem_map.1 hb
    exact hc x hx
  rw [h1, h2, hp.length_eq]

theorem mem_take_drop {l : List Nat} {a n x : Nat} (h : x ∈ (l.drop a).take n) :
    ∃ j, a ≤ j ∧ j < a + n ∧ l[j]? = some x := by
  obtain ⟨i, hi⟩ := List.mem_iff_getElem?.1 h
  rw [List.getElem?_take] at hi
  by_cases hin : i < n
  · rw [if_pos hin, List.getElem?_drop] at hi
    exact ⟨a + i, by omega, by omega, hi⟩
  · rw [if_neg hin] at hi
    exact absurd hi (by simp)

theorem split_range (l : List Nat) (lb rb : Nat) (h : lb ≤ rb) :
    l = l.take lb ++ (l.drop lb).take (rb - lb) ++ l.drop rb := by
  have h1 : l.drop rb = (l.drop lb).drop (rb - lb) := by
    rw [List.drop_drop]
    congr 1
    omega
  rw [h1, List.append_assoc, List.take_append_drop, List.take_append_drop]

theorem shuffleRange_perm (lib : StdLib) (seed : Nat) (l : List Nat) (lb rb : Nat)
    (h : lb ≤ rb) : (shuffleRange lib seed l lb rb).Perm l := by
  have hs := split_range l lb rb h
  unfold shuffleRange
  conv_rhs => rw [hs]
  exact ((List.Perm.refl _).append (lib.shuffle_perm seed _)).append (List.Perm.refl _)

theorem shuffleRange_map (lib : StdLib) (seed : Nat) (l : List Nat) (lb rb : Nat)
    (h : lb ≤ rb) (f : Nat → Nat) (d : Nat)
    (hc : ∀ x ∈ (l.drop lb).take (rb - lb), f x = d) :
    (shuffleRange lib seed l lb rb).map f = l.map f := by
  have hs := split_range l lb rb h
  unfold shuffleRange
  conv_rhs => rw [hs]
  simp only [List.map_append]
  rw [map_eq_of_perm_const (lib.shuffle_perm seed _) hc]

theorem getD_of_getElem_opt {l : List Nat} {j x : Nat} (h : l[j]? = some x) :
    l.getD j 0 = x := by
  simp [List.getD_eq_getElem?_getD, h]

theorem bucketShuffle_spec (lib : StdLib) (clock : Nat → Nat) (g : GraphType)
    (l0 : List Nat) (hidx : ∀ i ∈ l0, i < g.length) :
    ∃ l, bucketShuffle lib clock g l0 = some l ∧ l.Perm l0 ∧
      l.map (degree g) = l0.map (degree g) := by
  have key := forRange_inv (bucketStep lib clock g)
    (fun k (t : List Nat × Nat) =>
      t.1.Perm l0 ∧ t.1.map (degree g) = l0.map (degree g) ∧ t.2 ≤ k ∧
      (∀ j x, t.2 ≤ j → j < k → t.1[j]? = some x →
        degree g x = degree g (t.1.getD t.2 0)))
    l0.length (l0, 0)
    ⟨List.Perm.refl _, rfl, Nat.le_refl 0, by
      intro j x _ hj
      omega⟩
    (by
      rintro k ⟨l, lb⟩ hk ⟨hp, hm, hle, hseg⟩
      simp only at hp hm hle hseg
      have hlen : l.length = l0.length := hp.length_eq
      have hkl : k < l.length := by omega
      have hlbl : lb < l.length := by omega
      have e1 : l[lb]? = some (l.getD lb 0) := getElem_opt_of_lt l lb 0 hlbl
      have e3 : l[k]? = some (l.getD k 0) := getElem_opt_of_lt l k 0 hkl
      have ha : l.getD lb 0 < g.length :=
        hidx _ (hp.subset (List.mem_iff_getElem?.2 ⟨lb, e1⟩))
      have hb : l.getD k 0 < g.length :=
        hidx _ (hp.subset (List.mem_iff_getElem?.2 ⟨k, e3⟩))
      have e2 : g[l.getD lb 0]? = some (g.getD (l.getD lb 0) ∅) :=
        getElem_opt_of_lt g _ ∅ ha
      have e4 : g[l.getD k 0]? = some (g.getD (l.getD k 0) ∅) :=
        getElem_opt_of_lt g _ ∅ hb
      by_cases hcond : (g.getD (l.getD lb 0) ∅).card ≠ (g.getD (l.getD k 0) ∅).card
      · refine ⟨(shuffleRange lib (clock k) l lb k, k), ?_, ?_, ?_, ?_, ?_⟩
        · simp only [bucketStep, e1, e2, e3, e4, if_pos hcond]
        · exact (shuffleRange_perm lib (clock k) l lb k hle).trans hp
        · rw [← hm]
          refine shuffleRange_map lib (clock k) l lb k hle (degree g)
            (degree g (l.getD lb 0)) ?_
          intro x hx
          obtain ⟨j, hj1, hj2, hj3⟩ := mem_take_drop hx
          exact hseg j x hj1 (by omega) hj3
        · exact Nat.le_succ k
        · intro j x hj1 hj2 hj3
          have hjk : j = k := by
            simp only at hj1
            omega
          subst hjk
          simp only
          rw [getD_of_getElem_opt hj3]
      · have hcard : (g.getD (l.getD lb 0) ∅).card = (g.getD (l.getD k 0) ∅).card := by
          by_contra h0
          exact hcond h0
        refine ⟨(l, lb), ?_, hp, hm, Nat.le_succ_of_le hle, ?_⟩
        · simp only [bucketStep, e1, e2, e3, e4, if_neg hcond]
        · intro j x hj1 hj2 hj3
          by_cases hjk : j = k
          · subst hjk
            rw [e3] at hj3
            have hx : x = l.getD j 0 := (Option.some.inj hj3).symm
            rw [hx]
            exact hcard.symm
          · exact hseg j x hj1 (by omega) hj3)
  obtain ⟨t, ht, hp, hm, _, _⟩ := key
  refine ⟨t.1, ?_, hp, hm⟩
  simp only [bucketShuffle, ht]

theorem orderIndexes_spec (lib : StdLib) (clock : Nat → Nat) (order : SortOrder)
    (g : GraphType) (indexes : List Nat) (hidx : ∀ i ∈ indexes, i < g.length) :
    ∃ l, orderIndexes lib clock order g indexes = some l ∧ l.Perm indexes := by
  have hasc := lib.sort_perm (compAsc g) indexes (compAsc_strictWeak g)
  have hdesc := lib.sort_perm (compDesc g) indexes (compDesc_strictWeak g)
  cases order with
  | None => exact ⟨indexes, rfl, List.Perm.refl _⟩
  | ASC =>
    exact ⟨_, by simp only [orderIndexes, sortIndexes_spec lib g _ indexes hidx], hasc⟩
  | DESC =>
    exact ⟨_, by simp only [orderIndexes, sortIndexes_spec lib g _ indexes hidx], hdesc⟩
  | DESC_SHUFFLE =>
    obtain ⟨l, hl, hp, _⟩ := bucketShuffle_spec lib clock g (lib.sort (compDesc g) indexes)
      (fun i hi => hidx i (hdesc.subset hi))
    exact ⟨l, by simp only [orderIndexes, sortIndexes_spec lib g _ indexes hidx, hl],
      hp.trans hdesc⟩
  | ASC_SHUFFLE =>
    obtain ⟨l, hl, hp, _⟩ := bucketShuffle_spec lib clock g (lib.sort (compAsc g) indexes)
      (fun i hi => hidx i (hasc.subset hi))
    exact ⟨l, by simp only [orderIndexes, sortIndexes_spec lib g _ indexes hidx, hl],
      hp.trans hasc⟩
  | SHUFFLE => exact ⟨_, rfl, lib.shuffle_perm _ _⟩

/-! ## `ReadFile` -/

theorem insertEdge_spec (g : GraphType) (a b : Nat) (ha1 : 1 ≤ a) (ha2 : a ≤ g.length) :
    ∃ g1, insertEdge g a b = some g1 ∧ g1.length = g.length ∧
      ∀ x w, w ∈ g1.getD x ∅ ↔ (w ∈ g.getD x ∅ ∨ (x + 1 = a ∧ w = b)) := by
  have hlt : a - 1 < g.length := by omega
  have e1 : g[a - 1]? = some (g.getD (a - 1) ∅) := getElem_opt_of_lt g (a - 1) ∅ hlt
  have hne : ¬ a = 0 := by omega
  refine ⟨g.set (a - 1) (insert b (g.getD (a - 1) ∅)), ?_, by simp, ?_⟩
  · simp only [insertEdge, if_neg hne, e1]
  · intro x w
    rw [getD_set]
    by_cases hx : x = a - 1
    · have hxa : x + 1 = a := by omega
      rw [if_pos ⟨hx, hlt⟩, Finset.mem_insert, hx]
      constructor
      · rintro (h | h)
        · exact Or.inr ⟨by omega, h⟩
        · exact Or.inl h
      · rintro (h | h)
        · exact Or.inr h
        · exact Or.inl h.2
    · have hxa : ¬ x + 1 = a := by omega
      simp [hx, hxa]

theorem readEdges_spec (edges : List (Nat × Nat)) :
    ∀ (s : ColorigProblem), EdgesInRange s.graph.length edges →
      ∃ g, (edges.map (fun e => Line.e e.1 e.2)).foldlM readLine s
          = some { s with graph := g } ∧
        g.length = s.graph.length ∧
        ∀ x w, w ∈ g.getD x ∅ ↔
          (w ∈ s.graph.getD x ∅ ∨
            ∃ e ∈ edges, (x + 1 = e.1 ∧ w = e.2) ∨ (x + 1 = e.2 ∧ w = e.1)) := by
  induction edges with
  | nil =>
    intro s _
    exact ⟨s.graph, rfl, rfl, by simp⟩
  | cons e rest ih =>
    intro s hE
    obtain ⟨h1, h2, h3, h4⟩ := hE e (List.mem_cons_self _ _)
    obtain ⟨g1, hg1, hl1, hm1⟩ := insertEdge_spec s.graph e.1 e.2 h1 h2
    obtain ⟨g2, hg2, hl2, hm2⟩ := insertEdge_spec g1 e.2 e.1 h3 (by omega)
    have hstep : readLine s (Line.e e.1 e.2) = some { s with graph := g2 } := by
      simp only [readLine, hg1, hg2]
    obtain ⟨g, hg, hl, hm⟩ := ih { s with graph := g2 } (by
      intro e1 he1
      have := hE e1 (List.mem_cons_of_mem _ he1)
      simp only [hl2, hl1]
      exact this)
    refine ⟨g, ?_, by simpa [hl2, hl1] using hl, ?_⟩
    · simp only [List.map_cons, List.foldlM_cons, hstep]
      exact hg
    · intro x w
      have hex : (∃ e1 ∈ e :: rest, (x + 1 = e1.1 ∧ w = e1.2) ∨ (x + 1 = e1.2 ∧ w = e1.1)) ↔
          (((x + 1 = e.1 ∧ w = e.2) ∨ (x + 1 = e.2 ∧ w = e.1)) ∨
            ∃ e1 ∈ rest, (x + 1 = e1.1 ∧ w = e1.2) ∨ (x + 1 = e1.2 ∧ w = e1.1)) := by
        simp only [List.mem_cons, exists_eq_or_imp]
      rw [hm x w, hex, hm2, hm1]
      simp only [or_assoc]

theorem ReadFile_spec (N M : Nat) (edges : List (Nat × Nat)) (hE : EdgesInRange N edges) :
    ∃ g, ReadFile ColorigProblem.init (edgeFile N M edges) = some (fresh g) ∧
      g.length = N ∧
      ∀ x w, w ∈ g.getD x ∅ ↔
        ∃ e ∈ edges, (x + 1 = e.1 ∧ w = e.2) ∨ (x + 1 = e.2 ∧ w = e.1) := by
  have hlen : (resize ([] : GraphType) N ∅).length = N := by simp [resize]
  obtain ⟨g, hg, hl, hm⟩ := readEdges_spec edges
    { graph := resize [] N ∅, indexes := resize [] N 0, colors := resize [] N 0,
      maxColor := 0 }
    (by simpa [hlen] using hE)
  simp only [hlen] at hl
  refine ⟨g, ?_, hl, ?_⟩
  · have hp : readLine ColorigProblem.init (Line.p N M)
        = some { graph := resize [] N ∅, indexes := resize [] N 0,
                 colors := resize [] N 0, maxColor := 0 } := rfl
    simp only [ReadFile, edgeFile, List.foldlM_cons, hp]
    simp only [Option.bind_eq_bind, Option.some_bind, hg]
    simp [fresh, resize, hl]
  · intro x w
    have hempty : (resize ([] : GraphType) N ∅).getD x ∅ = ∅ := by
      simp only [resize, List.take_nil, List.nil_append, List.length_nil, Nat.sub_zero,
        List.getD_eq_getElem?_getD, List.getElem?_replicate]
      split <;> rfl
    have h := hm x w
    simp only [hempty, Finset.not_mem_empty, false_or] at h
    exact h

theorem symmetric_of_edges (g : GraphType) (edges : List (Nat × Nat))
    (hm : ∀ x w, w ∈ g.getD x ∅ ↔
      ∃ e ∈ edges, (x + 1 = e.1 ∧ w = e.2) ∨ (x + 1 = e.2 ∧ w = e.1)) :
    Symmetric g := by
  intro a b hab
  unfold Adj at hab ⊢
  rw [hm] at hab ⊢
  obtain ⟨e, he, h | h⟩ := hab
  · exact ⟨e, he, Or.inr ⟨h.2, h.1⟩⟩
  · exact ⟨e, he, Or.inl ⟨h.2, h.1⟩⟩

/-! ## `GreedyColoring` from the fresh state -/

theorem mem_range_lt {n : Nat} {l : List Nat} (hp : l.Perm (List.range n)) :
    ∀ i ∈ l, i < n := by
  intro i hi
  exact List.mem_range.1 (hp.subset hi)

theorem greedy_fresh (lib : StdLib) (clock : Nat → Nat) (order : SortOrder) (g : GraphType) :
    ∃ idx cs m,
      GreedyColoring lib clock order (fresh g)
        = some { graph := g, indexes := idx, colors := cs, maxColor := m } ∧
      orderIndexes lib clock order g (List.range g.length) = some idx ∧
      idx.Perm (List.range g.length) ∧
      colorLoop g idx (List.replicate g.length 0) 0 = some (cs, m) ∧
      ColorInv g idx (cs, m) := by
  obtain ⟨idx, hidx, hp⟩ := orderIndexes_spec lib clock order g (List.range g.length)
    (fun i hi => List.mem_range.1 hi)
  obtain ⟨t, ht, hI⟩ := colorLoop_spec g idx (List.replicate g.length 0, 0)
    (mem_range_lt hp) (colorInv_fresh g)
  refine ⟨idx, t.1, t.2, ?_, hidx, hp, ht, hI⟩
  simp only [GreedyColoring, fresh, hidx, ht]

theorem colorInv_total (g : GraphType) (idx : List Nat) (st : List Nat × Nat)
    (hp : idx.Perm (List.range g.length)) (hI : ColorInv g idx st) :
    ∀ v, v < g.length → colorOf st.1 v ≠ 0 := by
  intro v hv
  exact hI.2.2.1 v (hp.symm.subset (List.mem_range.2 hv))

theorem colorInv_toFinset (g : GraphType) (idx : List Nat) (st : List Nat × Nat)
    (hp : idx.Perm (List.range g.length)) (hI : ColorInv g idx st) :
    st.1.toFinset = Finset.Icc 1 st.2 := by
  ext k
  rw [List.mem_toFinset, Finset.mem_Icc]
  constructor
  · intro hk
    obtain ⟨v, hv⟩ := List.mem_iff_getElem?.1 hk
    have hvd : colorOf st.1 v = k := by
      simp [colorOf, List.getD_eq_getElem?_getD, hv]
    have hvl : v < g.length := by
      rw [← hI.1]
      by_contra hlt
      rw [List.getElem?_eq_none (Nat.le_of_not_lt hlt)] at hv
      exact absurd hv (by simp)
    have h0 := colorInv_total g idx st hp hI v hvl
    have h1 := hI.2.1 v
    omega
  · rintro ⟨hk1, hk2⟩
    obtain ⟨v, hv⟩ := hI.2.2.2.1 k hk1 hk2
    have hvl : v < st.1.length := getD_ne_zero_lt st.1 v (by
      simp only [colorOf] at hv
      omega)
    have e := getElem_opt_of_lt st.1 v 0 hvl
    simp only [colorOf] at hv
    rw [hv] at e
    exact List.mem_iff_getElem?.2 ⟨v, e⟩

theorem foldr_max_eq (l : List Nat) (m : Nat) (hle : ∀ x ∈ l, x ≤ m)
    (hmem : m = 0 ∨ m ∈ l) : l.foldr max 0 = m := by
  have hub : ∀ l1 : List Nat, (∀ x ∈ l1, x ≤ m) → l1.foldr max 0 ≤ m := by
    intro l1
    induction l1 with
    | nil => intro _; exact Nat.zero_le m
    | cons a t ih =>
      intro h
      simp only [List.foldr_cons]
      exact max_le (h a (List.mem_cons_self _ _))
        (ih (fun x hx => h x (List.mem_cons_of_mem _ hx)))
  have hlb : ∀ l1 : List Nat, ∀ x ∈ l1, x ≤ l1.foldr max 0 := by
    intro l1
    induction l1 with
    | nil => intro x hx; simp at hx
    | cons a t ih =>
      intro x hx
      simp only [List.foldr_cons]
      rcases List.mem_cons.1 hx with h | h
      · rw [h]
        exact le_max_left _ _
      · exact le_trans (ih x h) (le_max_right _ _)
  apply Nat.le_antisymm (hub l hle)
  rcases hmem with h | h
  · rw [h]
    exact Nat.zero_le _
  · exact hlb l m h

/-! ## Complete graphs -/

theorem complete_maxColor (g : GraphType) (idx : List Nat) (st : List Nat × Nat)
    (hsym : Symmetric g) (hc : Complete g) (hp : idx.Perm (List.range g.length))
    (hI : ColorInv g idx st) : st.2 = g.length := by
  have hnd : st.1.Nodup := by
    rw [List.nodup_iff_getElem?_ne_getElem?]
    intro i j hij hj heq
    have hjl : j < g.length := by rw [← hI.1]; exact hj
    have hil : i < g.length := by omega
    have hi0 := colorInv_total g idx st hp hI i hil
    have ei : colorOf st.1 i = colorOf st.1 j := by
      simp only [colorOf, List.getD_eq_getElem?_getD, heq]
    exact hI.2.2.2.2 hsym i j hi0 ei (by omega) (hc i j hil hjl (by omega))
  have h1 := List.toFinset_card_of_nodup hnd
  rw [colorInv_toFinset g idx st hp hI, Nat.card_Icc, hI.1] at h1
  omega

theorem mem_completeEdges (n a b : Nat) :
    (a, b) ∈ completeEdges n ↔ 1 ≤ a ∧ a < b ∧ b ≤ n := by
  simp only [completeEdges, List.mem_flatten, List.mem_map, List.mem_range, List.mem_filter,
    decide_eq_true_eq]
  constructor
  · rintro ⟨l, ⟨x, hx, rfl⟩, hm⟩
    simp only [List.mem_map, List.mem_filter, List.mem_range, decide_eq_true_eq,
      Prod.mk.injEq] at hm
    obtain ⟨y, ⟨hy1, hy2⟩, rfl, rfl⟩ := hm
    omega
  · rintro ⟨h1, h2, h3⟩
    refine ⟨_, ⟨a - 1, by omega, rfl⟩, ?_⟩
    simp only [List.mem_map, List.mem_filter, List.mem_range, decide_eq_true_eq,
      Prod.mk.injEq]
    exact ⟨b - 1, ⟨by omega, by omega⟩, by omega, by omega⟩

theorem completeEdges_inRange (n : Nat) : EdgesInRange n (completeEdges n) := by
  intro e he
  have := (mem_completeEdges n e.1 e.2).1 he
  omega

theorem complete_of_completeEdges (g : GraphType) (n : Nat) (hlen : g.length = n)
    (hm : ∀ x w, w ∈ g.getD x ∅ ↔
      ∃ e ∈ completeEdges n, (x + 1 = e.1 ∧ w = e.2) ∨ (x + 1 = e.2 ∧ w = e.1)) :
    Complete g := by
  intro u v hu hv huv
  unfold Adj
  rw [hm]
  by_cases h : u < v
  · exact ⟨(u + 1, v + 1), (mem_completeEdges n _ _).2 ⟨by omega, by omega, by omega⟩,
      Or.inl ⟨rfl, rfl⟩⟩
  · exact ⟨(v + 1, u + 1), (mem_completeEdges n _ _).2 ⟨by omega, by omega, by omega⟩,
      Or.inr ⟨rfl, rfl⟩⟩

/-! ## The trial loop -/

theorem colorCount_spec (lib : StdLib) (clock : Nat → Nat) (order : SortOrder)
    (g : GraphType) :
    ∃ s1, GreedyColoring lib clock order (fresh g) = some s1 ∧
      resetResults s1 = fresh g ∧
      getMaxColor s1 = colorCount lib clock order g ∧
      colorCount lib clock order g ≤ g.length := by
  obtain ⟨idx, cs, m, hrun, _, hp, _, hI⟩ := greedy_fresh lib clock order g
  have hfin := colorInv_toFinset g idx (cs, m) hp hI
  have hl : cs.length = g.length := hI.1
  have hil : idx.length = g.length := by simpa using hp.length_eq
  refine ⟨_, hrun, ?_, ?_, ?_⟩
  · simp only [resetResults, fresh, hl, hil]
  · simp only [colorCount, hrun]
  · simp only [colorCount, hrun, getMaxColor]
    have h1 := List.toFinset_card_le cs
    simp only at hfin
    rw [hfin, Nat.card_Icc, hl] at h1
    omega

theorem attempt_spec (lib : StdLib) (clock : Nat → Nat) (order : SortOrder)
    (g : GraphType) (res : Nat) :
    attempt lib clock order (fresh g, res)
      = some (fresh g, min res (colorCount lib clock order g)) := by
  obtain ⟨s1, hrun, hreset, hmax, _⟩ := colorCount_spec lib clock order g
  simp only [attempt, hrun, hreset, hmax]

theorem runAttempts_spec (lib : StdLib) (clocks : Nat → Nat → Nat) (g : GraphType)
    (orders : List SortOrder) :
    ∀ (k res : Nat), runAttempts lib clocks k orders (fresh g, res)
      = some (fresh g, (colorCounts lib clocks g k orders).foldl min res) := by
  induction orders with
  | nil =>
    intro k res
    rfl
  | cons o rest ih =>
    intro k res
    simp only [runAttempts, attempt_spec, colorCounts, List.foldl_cons]
    exact ih (k + 1) _

theorem colorCounts_append (lib : StdLib) (clocks : Nat → Nat → Nat) (g : GraphType)
    (l1 l2 : List SortOrder) :
    ∀ k, colorCounts lib clocks g k (l1 ++ l2)
      = colorCounts lib clocks g k l1 ++ colorCounts lib clocks g (k + l1.length) l2 := by
  induction l1 with
  | nil =>
    intro k
    simp [colorCounts]
  | cons o rest ih =>
    intro k
    have hk : k + 1 + rest.length = k + (rest.length + 1) := by omega
    show colorCount lib (clocks k) o g :: colorCounts lib clocks g (k + 1) (rest ++ l2)
      = colorCount lib (clocks k) o g :: colorCounts lib clocks g (k + 1) rest
        ++ colorCounts lib clocks g (k + (rest.length + 1)) l2
    rw [ih (k + 1), hk]
    rfl

theorem colorCounts_le (lib : StdLib) (clocks : Nat → Nat → Nat) (g : GraphType)
    (orders : List SortOrder) :
    ∀ k, ∀ x ∈ colorCounts lib clocks g k orders, x ≤ g.length := by
  induction orders with
  | nil =>
    intro k x hx
    simp [colorCounts] at hx
  | cons o rest ih =>
    intro k x hx
    simp only [colorCounts, List.mem_cons] at hx
    rcases hx with h | h
    · rw [h]
      exact (colorCount_spec lib (clocks k) o g).choose_spec.2.2.2
    · exact ih (k + 1) x h

theorem resAfter_spec (lib : StdLib) (clocks : Nat → Nat → Nat) (g : GraphType) (k : Nat) :
    resAfter lib clocks (fresh g) k
      = some ((colorCounts lib clocks g 0 (schedule.take k)).foldl min 999) := by
  simp only [resAfter, runAttempts_spec, Option.map_some']

theorem trialLoop_spec (lib : StdLib) (clocks : Nat → Nat → Nat) (g : GraphType) :
    trialLoop lib clocks (fresh g)
      = some ((colorCounts lib clocks g 0 schedule).foldl min 999) := by
  simp only [trialLoop, runAttempts_spec, Option.map_some']

/-! ## Validity, totality, the permutation invariant, the colour count -/

/-- C1 (validity). For a file with the problem line `p N M` and edges whose
1-based endpoints lie in `1..N`, `ReadFile` returns the fresh state (all
colours `0`, `maxColor = 0`), `GreedyColoring` returns from it for every
library, clock and `SortOrder`, and in the result the two endpoints of every
edge `(u, v)` with `u ≠ v` have different colours; the same holds for any two
distinct vertices one of which is stored in the neighbour set of the other. -/
theorem validity_of_greedyColoring (lib : StdLib) (clock : Nat → Nat) (order : SortOrder)
    (N M : Nat) (edges : List (Nat × Nat)) (hE : EdgesInRange N edges) :
    ∃ s s1, ReadFile ColorigProblem.init (edgeFile N M edges) = some s ∧
      s.colors = List.replicate N 0 ∧ s.maxColor = 0 ∧
      GreedyColoring lib clock order s = some s1 ∧
      s1.colors.length = N ∧
      (∀ e ∈ edges, e.1 ≠ e.2 →
        colorOf s1.colors (e.1 - 1) ≠ colorOf s1.colors (e.2 - 1)) ∧
      (∀ u v, u ≠ v → Adj s1.graph u v → colorOf s1.colors u ≠ colorOf s1.colors v) := by
  obtain ⟨g, hread, hlen, hmem⟩ := ReadFile_spec N M edges hE
  obtain ⟨idx, cs, m, hrun, _, hp, _, hI⟩ := greedy_fresh lib clock order g
  have hsym := symmetric_of_edges g edges hmem
  have hadj : ∀ u v, u ≠ v → Adj g u v → colorOf cs u ≠ colorOf cs v := by
    intro u v huv hadj heq
    have hu := colorInv_total g idx (cs, m) hp hI u (adj_lt g u v hadj)
    exact hI.2.2.2.2 hsym u v hu heq huv hadj
  refine ⟨fresh g, _, hread, by simp [fresh, hlen], rfl, hrun, ?_, ?_, hadj⟩
  · simpa [hlen] using hI.1
  · intro e he hne
    obtain ⟨h1, h2, h3, h4⟩ := hE e he
    refine hadj (e.1 - 1) (e.2 - 1) (by omega) ?_
    unfold Adj
    rw [hmem]
    exact ⟨e, he, Or.inl ⟨by omega, by omega⟩⟩

/-- Witness of C1: the 4-cycle, insertion sort, `DESC_SHUFFLE`. -/
theorem validity_of_greedyColoring_witness :
    EdgesInRange 4 [(1, 2), (2, 3), (3, 4), (4, 1)] ∧
    ∃ s s1, ReadFile ColorigProblem.init (edgeFile 4 4 [(1, 2), (2, 3), (3, 4), (4, 1)])
        = some s ∧
      s.colors = List.replicate 4 0 ∧ s.maxColor = 0 ∧
      GreedyColoring insertionLib id SortOrder.DESC_SHUFFLE s = some s1 ∧
      s1.colors.length = 4 ∧
      (∀ e ∈ [(1, 2), (2, 3), (3, 4), (4, 1)], e.1 ≠ e.2 →
        colorOf s1.colors (e.1 - 1) ≠ colorOf s1.colors (e.2 - 1)) ∧
      (∀ u v, u ≠ v → Adj s1.graph u v → colorOf s1.colors u ≠ colorOf s1.colors v) :=
  ⟨by unfold EdgesInRange; decide,
   validity_of_greedyColoring insertionLib id SortOrder.DESC_SHUFFLE 4 4
     [(1, 2), (2, 3), (3, 4), (4, 1)] (by unfold EdgesInRange; decide)⟩

/-- C2 (totality). For every graph, library, clock and `SortOrder`,
`GreedyColoring` returns from the fresh state and leaves every vertex
`v` in `0..N-1` with `colors[v] ≠ 0`. -/
theorem totality_of_greedyColoring (lib : StdLib) (clock : Nat → Nat) (order : SortOrder)
    (g : GraphType) :
    ∃ s1, GreedyColoring lib clock order (fresh g) = some s1 ∧
      s1.colors.length = g.length ∧
      ∀ v, v < g.length → colorOf s1.colors v ≠ 0 := by
  obtain ⟨idx, cs, m, hrun, _, hp, _, hI⟩ := greedy_fresh lib clock order g
  exact ⟨_, hrun, hI.1, colorInv_total g idx (cs, m) hp hI⟩

/-- Witness of C2: the path on three vertices, insertion sort, `ASC_SHUFFLE`;
the colours are `1, 2, 1`. -/
theorem totality_of_greedyColoring_witness :
    (GreedyColoring insertionLib id SortOrder.ASC_SHUFFLE (fresh [{2}, {1, 3}, {2}])).map
        (fun s => s.colors) = some [1, 2, 1] ∧
    ∃ s1, GreedyColoring insertionLib id SortOrder.ASC_SHUFFLE (fresh [{2}, {1, 3}, {2}])
        = some s1 ∧
      s1.colors.length = ([{2}, {1, 3}, {2}] : GraphType).length ∧
      ∀ v, v < ([{2}, {1, 3}, {2}] : GraphType).length → colorOf s1.colors v ≠ 0 :=
  ⟨by decide,
   totality_of_greedyColoring insertionLib id SortOrder.ASC_SHUFFLE [{2}, {1, 3}, {2}]⟩

/-- C3 (permutation invariant). For every graph and each of the six
orders, the ordering step started from `indexes = 0..N-1` returns, and the
new `indexes` is a rearrangement of `0..N-1`: it has `N` entries and holds
each vertex id below `N` exactly once. -/
theorem ordering_is_permutation (lib : StdLib) (clock : Nat → Nat) (order : SortOrder)
    (g : GraphType) :
    ∃ l, orderIndexes lib clock order g (List.range g.length) = some l ∧
      l.Perm (List.range g.length) ∧
      l.length = g.length ∧
      ∀ v, v < g.length → l.count v = 1 := by
  obtain ⟨l, hl, hp⟩ := orderIndexes_spec lib clock order g (List.range g.length)
    (fun i hi => List.mem_range.1 hi)
  refine ⟨l, hl, hp, by simpa using hp.length_eq, ?_⟩
  intro v hv
  rw [hp.count_eq]
  exact List.count_eq_one_of_mem (List.nodup_range _) (List.mem_range.2 hv)

/-- Witness of C3: the path on five vertices, insertion sort, `DESC_SHUFFLE`
with a rotation as the shuffle; the sort gives `1, 2, 3, 0, 4`, the bucket
loop rotates the first bucket, and the new `indexes` is `2, 3, 1, 0, 4`. -/
theorem ordering_is_permutation_witness :
    orderIndexes insertionLib (fun i => i + 1) SortOrder.DESC_SHUFFLE
        [{2}, {1, 3}, {2, 4}, {3, 5}, {4}] (List.range 5) = some [2, 3, 1, 0, 4] ∧
    ∃ l, orderIndexes insertionLib (fun i => i + 1) SortOrder.DESC_SHUFFLE
        [{2}, {1, 3}, {2, 4}, {3, 5}, {4}]
        (List.range ([{2}, {1, 3}, {2, 4}, {3, 5}, {4}] : GraphType).length) = some l ∧
      l.Perm (List.range ([{2}, {1, 3}, {2, 4}, {3, 5}, {4}] : GraphType).length) ∧
      l.length = ([{2}, {1, 3}, {2, 4}, {3, 5}, {4}] : GraphType).length ∧
      ∀ v, v < ([{2}, {1, 3}, {2, 4}, {3, 5}, {4}] : GraphType).length → l.count v = 1 :=
  ⟨by decide,
   ordering_is_permutation insertionLib (fun i => i + 1) SortOrder.DESC_SHUFFLE
     [{2}, {1, 3}, {2, 4}, {3, 5}, {4}]⟩

/-- C4 (meaning of the colour count). After `GreedyColoring` from the fresh
state, on any graph with any order: every `colors[v]` lies in
`1..maxColor`; every colour id in `1..maxColor` is carried by a vertex;
`getMaxColor()` is the largest value in `colors`; and it is the number of
distinct values in `colors`. -/
theorem maxColor_meaning (lib : StdLib) (clock : Nat → Nat) (order : SortOrder)
    (g : GraphType) :
    ∃ s1, GreedyColoring lib clock order (fresh g) = some s1 ∧
      (∀ v, v < g.length → 1 ≤ colorOf s1.colors v ∧ colorOf s1.colors v ≤ getMaxColor s1) ∧
      (∀ k, 1 ≤ k → k ≤ getMaxColor s1 → ∃ v, v < g.length ∧ colorOf s1.colors v = k) ∧
      s1.colors.foldr max 0 = getMaxColor s1 ∧
      s1.colors.toFinset.card = getMaxColor s1 := by
  obtain ⟨idx, cs, m, hrun, _, hp, _, hI⟩ := greedy_fresh lib clock order g
  have hfin := colorInv_toFinset g idx (cs, m) hp hI
  simp only at hfin
  refine ⟨_, hrun, ?_, ?_, ?_, ?_⟩
  · intro v hv
    have h0 := colorInv_total g idx (cs, m) hp hI v hv
    have h1 := hI.2.1 v
    simp only at h0 h1
    simp only [getMaxColor]
    omega
  · intro k hk1 hk2
    obtain ⟨v, hv⟩ := hI.2.2.2.1 k hk1 hk2
    refine ⟨v, ?_, hv⟩
    rw [← hI.1]
    exact getD_ne_zero_lt cs v (by
      simp only [colorOf] at hv
      omega)
  · simp only [getMaxColor]
    apply foldr_max_eq
    · intro x hx
      have : x ∈ cs.toFinset := List.mem_toFinset.2 hx
      rw [hfin, Finset.mem_Icc] at this
      exact this.2
    · by_cases hm : m = 0
      · exact Or.inl hm
      · right
        have : m ∈ Finset.Icc 1 m := Finset.mem_Icc.2 ⟨by omega, Nat.le_refl m⟩
        rw [← hfin] at this
        exact List.mem_toFinset.1 this
  · simp only [getMaxColor, hfin, Nat.card_Icc]
    omega

/-- Witness of C4: the path on three vertices, insertion sort, `DESC`; the
colours are `2, 1, 2` and `maxColor = 2`. -/
theorem maxColor_meaning_witness :
    (GreedyColoring insertionLib id SortOrder.DESC (fresh [{2}, {1, 3}, {2}])).map
        (fun s => (s.colors, s.maxColor)) = some ([2, 1, 2], 2) ∧
    ∃ s1, GreedyColoring insertionLib id SortOrder.DESC (fresh [{2}, {1, 3}, {2}]) = some s1 ∧
      (∀ v, v < ([{2}, {1, 3}, {2}] : GraphType).length →
        1 ≤ colorOf s1.colors v ∧ colorOf s1.colors v ≤ getMaxColor s1) ∧
      (∀ k, 1 ≤ k → k ≤ getMaxColor s1 →
        ∃ v, v < ([{2}, {1, 3}, {2}] : GraphType).length ∧ colorOf s1.colors v = k) ∧
      s1.colors.foldr max 0 = getMaxColor s1 ∧
      s1.colors.toFinset.card = getMaxColor s1 :=
  ⟨by decide, maxColor_meaning insertionLib id SortOrder.DESC [{2}, {1, 3}, {2}]⟩

/-! ## The trial runner -/

theorem schedule_length : schedule.length = 273 := by
  simp only [schedule, List.length_append, List.length_replicate, List.length_cons,
    List.length_nil]

theorem foldl_min_of_le (l : List Nat) :
    ∀ res, (∀ x ∈ l, res ≤ x) → l.foldl min res = res := by
  induction l with
  | nil =>
    intro res _
    rfl
  | cons a t ih =>
    intro res h
    have ha : min res a = res := Nat.min_eq_left (h a (List.mem_cons_self _ _))
    simp only [List.foldl_cons, ha]
    exact ih res (fun x hx => h x (List.mem_cons_of_mem _ hx))

theorem colorCounts_complete (lib : StdLib) (clocks : Nat → Nat → Nat) (g : GraphType)
    (hsym : Symmetric g) (hc : Complete g) (orders : List SortOrder) :
    ∀ k, ∀ x ∈ colorCounts lib clocks g k orders, x = g.length := by
  induction orders with
  | nil =>
    intro k x hx
    simp [colorCounts] at hx
  | cons o rest ih =>
    intro k x hx
    simp only [colorCounts, List.mem_cons] at hx
    rcases hx with h | h
    · obtain ⟨idx, cs, m, hrun, _, hp, _, hI⟩ := greedy_fresh lib (clocks k) o g
      rw [h]
      simp only [colorCount, hrun, getMaxColor]
      exact complete_maxColor g idx (cs, m) hsym hc hp hI
    · exact ih (k + 1) x h

/-- C5 at its failing input. On the complete graph with 1000 vertices, as
`ReadFile` builds it from the edges `a b` with `1 ≤ a < b ≤ 1000`, each of the
273 attempts of `main` has colour count 1000, so the minimum over the
attempts is 1000, and the value `main` reports is the initial `999`. -/
theorem trialLoop_complete1000 (lib : StdLib) (clocks : Nat → Nat → Nat) :
    ∃ s, ReadFile ColorigProblem.init (edgeFile 1000 499500 (completeEdges 1000)) = some s ∧
      trialLoop lib clocks s = some 999 ∧
      (colorCounts lib clocks s.graph 0 schedule).length = 273 ∧
      ∀ x ∈ colorCounts lib clocks s.graph 0 schedule, x = 1000 := by
  obtain ⟨g, hread, hlen, hmem⟩ :=
    ReadFile_spec 1000 499500 (completeEdges 1000) (completeEdges_inRange 1000)
  have hsym := symmetric_of_edges g _ hmem
  have hc := complete_of_completeEdges g 1000 hlen hmem
  have hall := colorCounts_complete lib clocks g hsym hc schedule 0
  rw [hlen] at hall
  have hlength : ∀ (orders : List SortOrder) (k : Nat),
      (colorCounts lib clocks g k orders).length = orders.length := by
    intro orders
    induction orders with
    | nil => intro k; rfl
    | cons o rest ih =>
      intro k
      simp only [colorCounts, List.length_cons, ih]
  refine ⟨fresh g, hread, ?_, ?_, hall⟩
  · rw [trialLoop_spec, foldl_min_of_le]
    intro x hx
    rw [hall x hx]
    decide
  · show (colorCounts lib clocks g 0 schedule).length = 273
    rw [hlength]
    exact schedule_length

/-- C6 (monotone improvement). For every graph with `N` vertices, and every
`k` below the number of attempts of the schedule, the value of `res` after
attempt `k + 1` is at most its value after the first `k` attempts (for
`k = 0`, the initial `999`), and it is at most `N`; the value `main` reports
is the value after the last attempt and is at most `N` too. -/
theorem res_nonincreasing_and_bounded (lib : StdLib) (clocks : Nat → Nat → Nat)
    (g : GraphType) (k : Nat) (hk : k < schedule.length) :
    ∃ r r1, resAfter lib clocks (fresh g) k = some r ∧
      resAfter lib clocks (fresh g) (k + 1) = some r1 ∧
      r1 ≤ r ∧ r1 ≤ g.length ∧
      ∃ final, trialLoop lib clocks (fresh g) = some final ∧
        resAfter lib clocks (fresh g) schedule.length = some final ∧
        final ≤ g.length := by
  have hstep : ∀ j, j < schedule.length →
      ∃ x, x ≤ g.length ∧
        (colorCounts lib clocks g 0 (schedule.take (j + 1))).foldl min 999
          = min ((colorCounts lib clocks g 0 (schedule.take j)).foldl min 999) x := by
    intro j hj
    have htake : schedule.take (j + 1) = schedule.take j ++ [schedule.get ⟨j, hj⟩] := by
      rw [List.take_succ, List.getElem?_eq_getElem hj]
      rfl
    refine ⟨colorCount lib (clocks (0 + (schedule.take j).length)) (schedule.get ⟨j, hj⟩) g,
      (colorCount_spec lib _ _ g).choose_spec.2.2.2, ?_⟩
    rw [htake, colorCounts_append, List.foldl_append]
    rfl
  obtain ⟨x, hx, hxe⟩ := hstep k hk
  have hlast : schedule.length = 272 + 1 := schedule_length
  obtain ⟨y, hy, hye⟩ := hstep 272 (by rw [hlast]; omega)
  have hfull : schedule.take (272 + 1) = schedule := by
    rw [← hlast]
    exact List.take_length schedule
  rw [hfull] at hye
  refine ⟨_, _, resAfter_spec lib clocks g k, resAfter_spec lib clocks g (k + 1), ?_, ?_,
    _, trialLoop_spec lib clocks g, ?_, ?_⟩
  · rw [hxe]
    exact Nat.min_le_left _ _
  · rw [hxe]
    exact le_trans (Nat.min_le_right _ _) hx
  · rw [resAfter_spec, List.take_length]
  · rw [hye]
    exact le_trans (Nat.min_le_right _ _) hy

/-- Witness of C6: the path on three vertices, first attempt. -/
theorem res_nonincreasing_and_bounded_witness :
    0 < schedule.length ∧
    ∃ r r1, resAfter insertionLib (fun _ => id) (fresh [{2}, {1, 3}, {2}]) 0 = some r ∧
      resAfter insertionLib (fun _ => id) (fresh [{2}, {1, 3}, {2}]) (0 + 1) = some r1 ∧
      r1 ≤ r ∧ r1 ≤ ([{2}, {1, 3}, {2}] : GraphType).length ∧
      ∃ final, trialLoop insertionLib (fun _ => id) (fresh [{2}, {1, 3}, {2}]) = some final ∧
        resAfter insertionLib (fun _ => id) (fresh [{2}, {1, 3}, {2}]) schedule.length
          = some final ∧
        final ≤ ([{2}, {1, 3}, {2}] : GraphType).length :=
  ⟨by simp only [schedule_length, Nat.zero_lt_succ],
   res_nonincreasing_and_bounded insertionLib (fun _ => id) [{2}, {1, 3}, {2}] 0
     (by simp only [schedule_length, Nat.zero_lt_succ])⟩

/-! ## Bucket shuffling, reset, end-to-end examples -/

theorem bucket_degrees (lib : StdLib) (clock : Nat → Nat) (g : GraphType)
    (comp : Nat → Nat → Bool) (hcomp : StrictWeakOrdering comp) :
    ∃ sorted l, sortIndexes lib g comp (List.range g.length) = some sorted ∧
      bucketShuffle lib clock g sorted = some l ∧
      l.Perm sorted ∧
      l.map (degree g) = sorted.map (degree g) ∧
      ∀ p, degree g (l.getD p 0) = degree g (sorted.getD p 0) := by
  have hidx : ∀ i ∈ List.range g.length, i < g.length := fun i hi => List.mem_range.1 hi
  have hperm := lib.sort_perm comp (List.range g.length) hcomp
  obtain ⟨l, hl, hp, hm⟩ := bucketShuffle_spec lib clock g (lib.sort comp (List.range g.length))
    (fun i hi => hidx i (hperm.subset hi))
  refine ⟨_, l, sortIndexes_spec lib g comp _ hidx, hl, hp, hm, ?_⟩
  intro p
  have e1 : (l.map (degree g)).getD p (degree g 0) = degree g (l.getD p 0) := by simp
  have e2 : ((lib.sort comp (List.range g.length)).map (degree g)).getD p (degree g 0)
      = degree g ((lib.sort comp (List.range g.length)).getD p 0) := by simp
  rw [← e1, ← e2, hm]

/-- C7 (degree-bucket shuffle invariant). For `DESC_SHUFFLE` and
`ASC_SHUFFLE`, for every graph and whatever rearrangements the shuffles
apply, the sort returns a sequence `sorted`, the bucket loop returns a
sequence `l` which is the new `indexes`, `l` is a rearrangement of `sorted`,
and at every position `p` the degree `graph[l[p]].size()` equals the degree
`graph[sorted[p]].size()`. -/
theorem bucket_shuffle_keeps_degrees (lib : StdLib) (clock : Nat → Nat) (g : GraphType) :
    (∃ sorted l, sortIndexes lib g (compDesc g) (List.range g.length) = some sorted ∧
      bucketShuffle lib clock g sorted = some l ∧
      orderIndexes lib clock SortOrder.DESC_SHUFFLE g (List.range g.length) = some l ∧
      l.Perm sorted ∧
      ∀ p, p < g.length → degree g (l.getD p 0) = degree g (sorted.getD p 0)) ∧
    (∃ sorted l, sortIndexes lib g (compAsc g) (List.range g.length) = some sorted ∧
      bucketShuffle lib clock g sorted = some l ∧
      orderIndexes lib clock SortOrder.ASC_SHUFFLE g (List.range g.length) = some l ∧
      l.Perm sorted ∧
      ∀ p, p < g.length → degree g (l.getD p 0) = degree g (sorted.getD p 0)) := by
  constructor
  · obtain ⟨sorted, l, hs, hl, hp, _, hd⟩ :=
      bucket_degrees lib clock g (compDesc g) (compDesc_strictWeak g)
    exact ⟨sorted, l, hs, hl, by simp only [orderIndexes, hs, hl], hp, fun p _ => hd p⟩
  · obtain ⟨sorted, l, hs, hl, hp, _, hd⟩ :=
      bucket_degrees lib clock g (compAsc g) (compAsc_strictWeak g)
    exact ⟨sorted, l, hs, hl, by simp only [orderIndexes, hs, hl], hp, fun p _ => hd p⟩

/-- Witness of C7: the path on five vertices, insertion sort, a rotation as
the shuffle.  Descending, the sort gives `1, 2, 3, 0, 4` and the loop
`2, 3, 1, 0, 4`; the degrees are `2, 2, 2, 1, 1` in both. -/
theorem bucket_shuffle_keeps_degrees_witness :
    (bucketShuffle insertionLib (fun i => i + 1) [{2}, {1, 3}, {2, 4}, {3, 5}, {4}]
        [1, 2, 3, 0, 4] = some [2, 3, 1, 0, 4] ∧
      [2, 3, 1, 0, 4].map (degree [{2}, {1, 3}, {2, 4}, {3, 5}, {4}]) = [2, 2, 2, 1, 1] ∧
      [1, 2, 3, 0, 4].map (degree [{2}, {1, 3}, {2, 4}, {3, 5}, {4}]) = [2, 2, 2, 1, 1]) ∧
    ((∃ sorted l, sortIndexes insertionLib [{2}, {1, 3}, {2, 4}, {3, 5}, {4}]
          (compDesc [{2}, {1, 3}, {2, 4}, {3, 5}, {4}])
          (List.range ([{2}, {1, 3}, {2, 4}, {3, 5}, {4}] : GraphType).length) = some sorted ∧
        bucketShuffle insertionLib (fun i => i + 1) [{2}, {1, 3}, {2, 4}, {3, 5}, {4}] sorted
          = some l ∧
        orderIndexes insertionLib (fun i => i + 1) SortOrder.DESC_SHUFFLE
          [{2}, {1, 3}, {2, 4}, {3, 5}, {4}]
          (List.range ([{2}, {1, 3}, {2, 4}, {3, 5}, {4}] : GraphType).length) = some l ∧
        l.Perm sorted ∧
        ∀ p, p < ([{2}, {1, 3}, {2, 4}, {3, 5}, {4}] : GraphType).length →
          degree [{2}, {1, 3}, {2, 4}, {3, 5}, {4}] (l.getD p 0)
            = degree [{2}, {1, 3}, {2, 4}, {3, 5}, {4}] (sorted.getD p 0)) ∧
      (∃ sorted l, sortIndexes insertionLib [{2}, {1, 3}, {2, 4}, {3, 5}, {4}]
          (compAsc [{2}, {1, 3}, {2, 4}, {3, 5}, {4}])
          (List.range ([{2}, {1, 3}, {2, 4}, {3, 5}, {4}] : GraphType).length) = some sorted ∧
        bucketShuffle insertionLib (fun i => i + 1) [{2}, {1, 3}, {2, 4}, {3, 5}, {4}] sorted
          = some l ∧
        orderIndexes insertionLib (fun i => i + 1) SortOrder.ASC_SHUFFLE
          [{2}, {1, 3}, {2, 4}, {3, 5}, {4}]
          (List.range ([{2}, {1, 3}, {2, 4}, {3, 5}, {4}] : GraphType).length) = some l ∧
        l.Perm sorted ∧
        ∀ p, p < ([{2}, {1, 3}, {2, 4}, {3, 5}, {4}] : GraphType).length →
          degree [{2}, {1, 3}, {2, 4}, {3, 5}, {4}] (l.getD p 0)
            = degree [{2}, {1, 3}, {2, 4}, {3, 5}, {4}] (sorted.getD p 0))) :=
  ⟨by decide,
   bucket_shuffle_keeps_degrees insertionLib (fun i => i + 1)
     [{2}, {1, 3}, {2, 4}, {3, 5}, {4}]⟩

/-- C8 (reset idempotence). For every graph and each of the orders `None`,
`ASC`, `DESC`: `GreedyColoring` from the fresh state returns a state `s1`;
`resetResults` turns `s1` back into the fresh state (colours all `0`,
`maxColor = 0`, `indexes = 0..N-1`, `graph` unchanged); and `GreedyColoring`
with the same order from there returns a state with the `colors` and the
`maxColor` of `s1`, whatever the clock reads during the second run. -/
theorem reset_then_rerun (lib : StdLib) (clock clock2 : Nat → Nat) (order : SortOrder)
    (g : GraphType)
    (hdet : order = SortOrder.None ∨ order = SortOrder.ASC ∨ order = SortOrder.DESC) :
    ∃ s1 s2, GreedyColoring lib clock order (fresh g) = some s1 ∧
      (resetResults s1).colors = List.replicate g.length 0 ∧
      (resetResults s1).maxColor = 0 ∧
      (resetResults s1).indexes = List.range g.length ∧
      (resetResults s1).graph = g ∧
      GreedyColoring lib clock2 order (resetResults s1) = some s2 ∧
      s2.colors = s1.colors ∧ s2.maxColor = s1.maxColor := by
  obtain ⟨s1, hrun, hreset, _, _⟩ := colorCount_spec lib clock order g
  have hsame : GreedyColoring lib clock2 order (fresh g)
      = GreedyColoring lib clock order (fresh g) := by
    rcases hdet with h | h | h <;> subst h <;> rfl
  refine ⟨s1, s1, hrun, ?_, ?_, ?_, ?_, ?_, rfl, rfl⟩
  · rw [hreset]
    rfl
  · rw [hreset]
    rfl
  · rw [hreset]
    rfl
  · rw [hreset]
    rfl
  · rw [hreset, hsame, hrun]

/-- Witness of C8: the path on three vertices, order `DESC`, insertion sort. -/
theorem reset_then_rerun_witness :
    (SortOrder.DESC = SortOrder.None ∨ SortOrder.DESC = SortOrder.ASC ∨
      SortOrder.DESC = SortOrder.DESC) ∧
    ∃ s1 s2, GreedyColoring insertionLib id SortOrder.DESC (fresh [{2}, {1, 3}, {2}])
        = some s1 ∧
      (resetResults s1).colors = List.replicate ([{2}, {1, 3}, {2}] : GraphType).length 0 ∧
      (resetResults s1).maxColor = 0 ∧
      (resetResults s1).indexes = List.range ([{2}, {1, 3}, {2}] : GraphType).length ∧
      (resetResults s1).graph = [{2}, {1, 3}, {2}] ∧
      GreedyColoring insertionLib (fun t => t + 7) SortOrder.DESC (resetResults s1)
        = some s2 ∧
      s2.colors = s1.colors ∧ s2.maxColor = s1.maxColor :=
  ⟨by decide,
   reset_then_rerun insertionLib id (fun t => t + 7) SortOrder.DESC [{2}, {1, 3}, {2}]
     (by decide)⟩

/-- C9 (end-to-end, 4-cycle). For the file `p 4 4`, `e 1 2`, `e 2 3`, `e 3 4`,
`e 4 1`, `ReadFile` returns a state from which `GreedyColoring` with
`SortOrder::None` returns a state with `maxColor = 2` and
`colors = [1, 2, 1, 2]`. -/
theorem cycle4_none (lib : StdLib) (clock : Nat → Nat) :
    ∃ s s1, ReadFile ColorigProblem.init (edgeFile 4 4 [(1, 2), (2, 3), (3, 4), (4, 1)])
        = some s ∧
      GreedyColoring lib clock SortOrder.None s = some s1 ∧
      getMaxColor s1 = 2 ∧ s1.colors = [1, 2, 1, 2] :=
  ⟨_, _, rfl, rfl, rfl, rfl⟩

/-- C10 (end-to-end, triangle). For the file `p 3 3`, `e 1 2`, `e 2 3`,
`e 1 3`, `ReadFile` returns a state `s` such that `GreedyColoring` from `s`
returns a state with `maxColor = 3` for every library, clock and
`SortOrder`, and such that the colouring loop run on any rearrangement of
`0, 1, 2` as `indexes` ends with `maxColor = 3`. -/
theorem triangle_three_colors :
    ∃ s, ReadFile ColorigProblem.init (edgeFile 3 3 [(1, 2), (2, 3), (1, 3)]) = some s ∧
      (∀ (lib : StdLib) (clock : Nat → Nat) (order : SortOrder),
        ∃ s1, GreedyColoring lib clock order s = some s1 ∧ getMaxColor s1 = 3) ∧
      (∀ indexes : List Nat, indexes.Perm [0, 1, 2] →
        ∃ t, colorLoop s.graph indexes s.colors s.maxColor = some t ∧ t.2 = 3) := by
  obtain ⟨g, hread, hlen, hmem⟩ := ReadFile_spec 3 3 [(1, 2), (2, 3), (1, 3)] (by
    unfold EdgesInRange
    decide)
  have hsym := symmetric_of_edges g _ hmem
  have hc : Complete g := by
    intro u v hu hv huv
    unfold Adj
    rw [hmem]
    rw [hlen] at hu hv
    simp only [List.mem_cons, List.mem_singleton, exists_eq_or_imp, exists_eq_left,
      List.not_mem_nil, false_and, exists_false, or_false]
    omega
  refine ⟨fresh g, hread, ?_, ?_⟩
  · intro lib clock order
    obtain ⟨idx, cs, m, hrun, _, hp, _, hI⟩ := greedy_fresh lib clock order g
    refine ⟨_, hrun, ?_⟩
    have := complete_maxColor g idx (cs, m) hsym hc hp hI
    simp only [getMaxColor]
    omega
  · intro indexes hp
    have hp3 : indexes.Perm (List.range g.length) := by
      rw [hlen]
      exact hp
    obtain ⟨t, ht, hI⟩ := colorLoop_spec g indexes (List.replicate g.length 0, 0)
      (mem_range_lt hp3) (colorInv_fresh g)
    refine ⟨t, ht, ?_⟩
    have := complete_maxColor g indexes t hsym hc hp3 hI
    omega

/-! ## Why a vertex is passed over: the trace of the inner loop -/

theorem fill_trace (g : GraphType) (m : Nat) (hm : m ≠ 0) (cs1 : List Nat) (b0 : Finset Nat)
    (hlen : cs1.length = g.length) :
    ∃ fin, (List.range g.length).foldlM (fillStep g m) (cs1, b0) = some fin ∧
      ∀ u, u < g.length → fin.1.getD u 0 = 0 →
        (u + 1 ∈ b0 ∨
          ∃ w, w < u ∧ cs1.getD w 0 = 0 ∧ fin.1.getD w 0 = m ∧ u + 1 ∈ g.getD w ∅) := by
  have key := forRange_inv (fillStep g m)
    (fun k (t : List Nat × Finset Nat) =>
      t.1.length = g.length ∧
      (∀ v, t.1.getD v 0 = 0 → cs1.getD v 0 = 0) ∧
      (∀ x, x ∈ t.2 → x ∈ b0 ∨
        ∃ w, w < k ∧ cs1.getD w 0 = 0 ∧ t.1.getD w 0 = m ∧ x ∈ g.getD w ∅) ∧
      (∀ u, u < k → t.1.getD u 0 = 0 →
        (u + 1 ∈ b0 ∨
          ∃ w, w < u ∧ cs1.getD w 0 = 0 ∧ t.1.getD w 0 = m ∧ u + 1 ∈ g.getD w ∅)))
    g.length (cs1, b0)
    ⟨hlen, fun _ h => h, fun x hx => Or.inl hx, by
      intro u hu
      omega⟩
    (by
      rintro k ⟨cs, b⟩ hk ⟨hl, hz, hban, hskip⟩
      simp only at hl hz hban hskip
      have hkc : k < cs.length := by simpa [hl] using hk
      have e1 : cs[k]? = some (cs.getD k 0) := getElem_opt_of_lt cs k 0 hkc
      have e2 : g[k]? = some (g.getD k ∅) := getElem_opt_of_lt g k ∅ hk
      by_cases hcond : cs.getD k 0 ≠ 0 ∨ k + 1 ∈ b
      · refine ⟨(cs, b), ?_, hl, hz, ?_, ?_⟩
        · simp only [fillStep, e1, if_pos hcond]
        · intro x hx
          rcases hban x hx with h | ⟨w, hw, h⟩
          · exact Or.inl h
          · exact Or.inr ⟨w, by omega, h⟩
        · intro u hu hu0
          by_cases huk : u = k
          · subst huk
            rcases hcond with h | h
            · exact absurd hu0 h
            · rcases hban (u + 1) h with h1 | ⟨w, hw, h1⟩
              · exact Or.inl h1
              · exact Or.inr ⟨w, hw, h1⟩
          · exact hskip u (by omega) hu0
      · have hk0 : cs.getD k 0 = 0 := by
          by_contra h0
          exact hcond (Or.inl h0)
        have hset : ∀ v, (cs.set k m).getD v 0 = if v = k then m else cs.getD v 0 := by
          intro v
          rw [getD_set]
          by_cases hv : v = k
          · simp [hv, hkc]
          · simp [hv]
        have hkeep : ∀ w, cs.getD w 0 = m → (cs.set k m).getD w 0 = m := by
          intro w hw
          rw [hset]
          by_cases hwk : w = k
          · rw [if_pos hwk]
          · rw [if_neg hwk]
            exact hw
        refine ⟨(cs.set k m, b ∪ g.getD k ∅), ?_, ?_, ?_, ?_, ?_⟩
        · simp only [fillStep, e1, if_neg hcond, e2]
        · simpa using hl
        · intro v hv
          simp only [hset] at hv
          by_cases hvk : v = k
          · rw [if_pos hvk] at hv
            exact absurd hv hm
          · rw [if_neg hvk] at hv
            exact hz v hv
        · intro x hx
          simp only [Finset.mem_union] at hx
          rcases hx with hx | hx
          · rcases hban x hx with h | ⟨w, hw, hw1, hw2, hw3⟩
            · exact Or.inl h
            · exact Or.inr ⟨w, by omega, hw1, hkeep w hw2, hw3⟩
          · refine Or.inr ⟨k, by omega, hz k hk0, ?_, hx⟩
            simp only [hset, if_pos]
        · intro u hu hu0
          simp only [hset] at hu0
          by_cases huk : u = k
          · rw [if_pos huk] at hu0
            exact absurd hu0 hm
          · rw [if_neg huk] at hu0
            rcases hskip u (by omega) hu0 with h | ⟨w, hw, hw1, hw2, hw3⟩
            · exact Or.inl h
            · exact Or.inr ⟨w, hw, hw1, hkeep w hw2, hw3⟩)
  obtain ⟨fin, hfin, _, _, _, h4⟩ := key
  exact ⟨fin, hfin, h4⟩

theorem colorStep_skip (g : GraphType) (cs : List Nat) (m i : Nat)
    (hcol : cs.getD i 0 ≠ 0) : colorStep g (cs, m) i = some (cs, m) := by
  have e1 : cs[i]? = some (cs.getD i 0) := getElem_opt_of_lt cs i 0 (getD_ne_zero_lt cs i hcol)
  simp only [colorStep, e1, if_pos hcol]

theorem colorStep_open (g : GraphType) (cs : List Nat) (m i : Nat)
    (hi : i < g.length) (hl : cs.length = g.length) (hle : ∀ v, cs.getD v 0 ≤ m)
    (hi0 : cs.getD i 0 = 0) :
    ∃ fin, colorStep g (cs, m) i = some (fin, m + 1) ∧
      (∀ v, fin.getD v 0 = m + 1 ∨ fin.getD v 0 = cs.getD v 0) ∧
      (∀ v, cs.getD v 0 ≠ 0 → fin.getD v 0 = cs.getD v 0) ∧
      fin.getD i 0 = m + 1 ∧
      (∀ u, u < g.length → fin.getD u 0 = 0 →
        ∃ w, fin.getD w 0 = m + 1 ∧ u + 1 ∈ g.getD w ∅ ∧ (w = i ∨ w < u)) := by
  have hic : i < cs.length := by simpa [hl] using hi
  have e1 : cs[i]? = some (cs.getD i 0) := getElem_opt_of_lt cs i 0 hic
  have e2 : g[i]? = some (g.getD i ∅) := getElem_opt_of_lt g i ∅ hi
  have hcol : ¬ cs.getD i 0 ≠ 0 := fun h => h hi0
  have hset : ∀ v, (cs.set i (m + 1)).getD v 0 = if v = i then m + 1 else cs.getD v 0 := by
    intro v
    rw [getD_set]
    by_cases hv : v = i
    · simp [hv, hic]
    · simp [hv]
  have honly : ∀ x, (cs.set i (m + 1)).getD x 0 = m + 1 → x = i := by
    intro x hx
    rw [hset] at hx
    by_contra hne
    rw [if_neg hne] at hx
    have := hle x
    omega
  obtain ⟨fin, hfin, _, hch, _⟩ := fill_spec g (m + 1) (Nat.succ_ne_zero m)
    (cs.set i (m + 1)) (g.getD i ∅) (by simpa using hl)
    (by
      intro x w hx hw
      rw [honly x hx] at hw
      exact hw)
    (by
      intro x y hx hy hxy
      exact absurd ((honly x hx).trans (honly y hy).symm) hxy)
  obtain ⟨fin2, hfin2, htr⟩ := fill_trace g (m + 1) (Nat.succ_ne_zero m)
    (cs.set i (m + 1)) (g.getD i ∅) (by simpa using hl)
  have hsame : fin2 = fin := by
    rw [hfin] at hfin2
    exact (Option.some.inj hfin2).symm
  subst hsame
  have hC : fin2.1.getD i 0 = m + 1 := by
    rcases hch i with h | h
    · rw [hset, if_pos rfl] at h
      exact h
    · exact h.2
  refine ⟨fin2.1, ?_, ?_, ?_, hC, ?_⟩
  · simp only [colorStep, e1, if_neg hcol, e2, hfin]
  · intro v
    rcases hch v with h | h
    · rw [hset] at h
      by_cases hv : v = i
      · rw [if_pos hv] at h
        exact Or.inl h
      · rw [if_neg hv] at h
        exact Or.inr h
    · exact Or.inl h.2
  · intro v hv
    have hvi : v ≠ i := by
      intro e
      rw [e] at hv
      exact hv hi0
    rcases hch v with h | h
    · rw [hset, if_neg hvi] at h
      exact h
    · rw [hset, if_neg hvi] at h
      exact absurd h.1 hv
  · intro u hu hu0
    rcases htr u hu hu0 with h | ⟨w, hw, _, hw2, hw3⟩
    · exact ⟨i, hC, h, Or.inl rfl⟩
    · exact ⟨w, hw2, hw3, Or.inr hw⟩

/-! ## The openers of the colours -/

theorem getD_mem_of_lt (l : List Nat) (q : Nat) (h : q < l.length) : l.getD q 0 ∈ l := by
  rw [List.getD_eq_getElem l 0 h]
  exact List.getElem_mem h

theorem getD_snoc_lt (l : List Nat) (i q : Nat) (h : q < l.length) :
    (l ++ [i]).getD q 0 = l.getD q 0 := by
  simp only [List.getD_eq_getElem?_getD, List.getElem?_append_left h]

theorem getD_snoc_length (l : List Nat) (i : Nat) : (l ++ [i]).getD l.length 0 = i := by
  simp [List.getD_eq_getElem?_getD]

theorem openStep_spec (g : GraphType) (done : List Nat) (st : List Nat × Nat) (i : Nat)
    (hi : i < g.length) (hI : ColorInv g done st) (hO : OpenInv g done st) :
    ∃ t1, colorStep g st i = some t1 ∧ OpenInv g (done ++ [i]) t1 := by
  obtain ⟨cs, m⟩ := st
  obtain ⟨hl, hle, hdone, _, _⟩ := hI
  simp only [colorOf] at hl hle hdone
  by_cases hcol : cs.getD i 0 ≠ 0
  · refine ⟨(cs, m), colorStep_skip g cs m i hcol, ?_⟩
    intro k hk1 hk2
    obtain ⟨p, hp, hpc, hbefore, hmax⟩ := hO k hk1 hk2
    refine ⟨p, by simp only [List.length_append, List.length_singleton]; omega, ?_, ?_, ?_⟩
    · rw [getD_snoc_lt done i p hp]
      exact hpc
    · intro q hq
      rw [getD_snoc_lt done i q (by omega)]
      exact hbefore q hq
    · intro u hu hcu
      rw [getD_snoc_lt done i p hp]
      exact hmax u hu hcu
  · have hi0 : cs.getD i 0 = 0 := by
      by_contra h0
      exact hcol h0
    obtain ⟨fin, hstep, hA, hB, hC, htr⟩ := colorStep_open g cs m i hi hl hle hi0
    refine ⟨(fin, m + 1), hstep, ?_⟩
    intro k hk1 hk2
    simp only at hk2
    by_cases hk : k = m + 1
    · subst hk
      refine ⟨done.length, by simp, ?_, ?_, ?_⟩
      · simp only [colorOf, getD_snoc_length]
        exact hC
      · intro q hq
        simp only [colorOf]
        rw [getD_snoc_lt done i q hq, hB _ (hdone _ (getD_mem_of_lt done q hq))]
        have := hle (done.getD q 0)
        omega
      · intro u hu hcu
        simp only [colorOf] at hcu ⊢
        rw [getD_snoc_length]
        rcases hcu with h | h
        · exact htr u hu h
        · exfalso
          rcases hA u with h2 | h2
          · omega
          · have := hle u
            omega
    · obtain ⟨p, hp, hpc, hbefore, hmax⟩ := hO k hk1 (by simp only; omega)
      simp only [colorOf] at hpc hbefore hmax
      refine ⟨p, by simp only [List.length_append, List.length_singleton]; omega, ?_, ?_, ?_⟩
      · simp only [colorOf]
        rw [getD_snoc_lt done i p hp, hB _ (by omega)]
        exact hpc
      · intro q hq
        simp only [colorOf]
        rw [getD_snoc_lt done i q (by omega),
          hB _ (hdone _ (getD_mem_of_lt done q (by omega)))]
        exact hbefore q hq
      · intro u hu hcu
        simp only [colorOf] at hcu ⊢
        rw [getD_snoc_lt done i p hp]
        have hold : cs.getD u 0 = 0 ∨ k < cs.getD u 0 := by
          by_cases hu0 : cs.getD u 0 = 0
          · exact Or.inl hu0
          · rw [hB u hu0] at hcu
            rcases hcu with h | h
            · exact absurd h hu0
            · exact Or.inr h
        obtain ⟨w, hw1, hw2, hw3⟩ := hmax u hu hold
        exact ⟨w, by rw [hB w (by omega)]; exact hw1, hw2, hw3⟩

theorem colorLoop_open (g : GraphType) (indexes : List Nat) (st : List Nat × Nat)
    (hidx : ∀ i ∈ indexes, i < g.length) (hI : ColorInv g [] st) (hO : OpenInv g [] st) :
    ∃ t, colorLoop g indexes st.1 st.2 = some t ∧ ColorInv g indexes t ∧
      OpenInv g indexes t := by
  have key := foldlM_inv (colorStep g) (fun d t => ColorInv g d t ∧ OpenInv g d t)
    indexes [] st ⟨hI, hO⟩ (by
    intro d x rest t hd hInv
    have hx : x ∈ indexes := by
      have : x ∈ [] ++ indexes := by
        rw [hd]
        simp
      simpa using this
    obtain ⟨t1, h1, hI1⟩ := colorStep_spec g d t x (hidx x hx) hInv.1
    obtain ⟨t2, h2, hO2⟩ := openStep_spec g d t x (hidx x hx) hInv.1 hInv.2
    have : t2 = t1 := by
      rw [h1] at h2
      exact (Option.some.inj h2).symm
    subst this
    exact ⟨t2, h2, hI1, hO2⟩)
  simpa [colorLoop] using key

theorem openInv_fresh (g : GraphType) : OpenInv g [] (List.replicate g.length 0, 0) := by
  intro k hk1 hk2
  simp only at hk2
  omega

theorem greedy_fresh_open (lib : StdLib) (clock : Nat → Nat) (order : SortOrder)
    (g : GraphType) :
    ∃ idx cs m,
      GreedyColoring lib clock order (fresh g)
        = some { graph := g, indexes := idx, colors := cs, maxColor := m } ∧
      idx.Perm (List.range g.length) ∧
      ColorInv g idx (cs, m) ∧ OpenInv g idx (cs, m) := by
  obtain ⟨idx, hidx, hp⟩ := orderIndexes_spec lib clock order g (List.range g.length)
    (fun i hi => List.mem_range.1 hi)
  obtain ⟨t, ht, hI, hO⟩ := colorLoop_open g idx (List.replicate g.length 0, 0)
    (mem_range_lt hp) (colorInv_fresh g) (openInv_fresh g)
  refine ⟨idx, t.1, t.2, ?_, hp, hI, hO⟩
  simp only [GreedyColoring, fresh, hidx, ht]

/-! ## Consequences of the two invariants -/

theorem firstPos_eq (idx cs : List Nat) (k p : Nat) (hp : p < idx.length)
    (hc : colorOf cs (idx.getD p 0) = k)
    (hb : ∀ q, q < p → colorOf cs (idx.getD q 0) ≠ k) : firstPos idx cs k = p := by
  unfold firstPos
  rw [List.findIdx_eq hp]
  constructor
  · rw [List.getD_eq_getElem idx 0 hp] at hc
    simpa using hc
  · intro j hj
    have h := hb j hj
    rw [List.getD_eq_getElem idx 0 (Nat.lt_trans hj hp)] at h
    simpa using h

theorem open_firstPos (g : GraphType) (idx : List Nat) (st : List Nat × Nat)
    (hO : OpenInv g idx st) (k : Nat) (hk1 : 1 ≤ k) (hk2 : k ≤ st.2) :
    firstPos idx st.1 k < idx.length ∧
    colorOf st.1 (idx.getD (firstPos idx st.1 k) 0) = k ∧
    (∀ q, q < firstPos idx st.1 k → colorOf st.1 (idx.getD q 0) < k) ∧
    (∀ u, u < g.length → (colorOf st.1 u = 0 ∨ k < colorOf st.1 u) →
      ∃ w, colorOf st.1 w = k ∧ u + 1 ∈ g.getD w ∅ ∧
        (w = idx.getD (firstPos idx st.1 k) 0 ∨ w < u)) := by
  obtain ⟨p, hp, hpc, hbefore, hmax⟩ := hO k hk1 hk2
  have hfp : firstPos idx st.1 k = p :=
    firstPos_eq idx st.1 k p hp hpc (fun q hq => Nat.ne_of_lt (hbefore q hq))
  rw [hfp]
  exact ⟨hp, hpc, hbefore, hmax⟩

theorem openedInOrder_of_inv (g : GraphType) (idx : List Nat) (st : List Nat × Nat)
    (hN : 1 ≤ g.length) (hp : idx.Perm (List.range g.length))
    (hI : ColorInv g idx st) (hO : OpenInv g idx st) :
    OpenedInOrder idx st.1 st.2 := by
  have hlen : idx.length = g.length := by simpa using hp.length_eq
  have htot := colorInv_total g idx st hp hI
  have hcolored : ∀ q, q < idx.length → colorOf st.1 (idx.getD q 0) ≠ 0 := by
    intro q hq
    exact hI.2.2.1 _ (getD_mem_of_lt idx q hq)
  have hm1 : 1 ≤ st.2 := by
    have h0 := htot 0 (by omega)
    have h1 := hI.2.1 0
    omega
  constructor
  · obtain ⟨h1, h2, h3, _⟩ := open_firstPos g idx st hO 1 (Nat.le_refl 1) hm1
    have hz : firstPos idx st.1 1 = 0 := by
      by_contra hne
      have hlt := h3 0 (by omega)
      have := hcolored 0 (by omega)
      omega
    rw [hz] at h2
    exact h2
  · intro k hk1 hk2
    obtain ⟨a1, a2, a3, _⟩ := open_firstPos g idx st hO k hk1 (by omega)
    obtain ⟨b1, b2, b3, _⟩ := open_firstPos g idx st hO (k + 1) (by omega) (by omega)
    refine ⟨?_, b1, a2, b2⟩
    by_contra hnot
    have hle : firstPos idx st.1 (k + 1) ≤ firstPos idx st.1 k := by omega
    rcases Nat.lt_or_eq_of_le hle with h | h
    · have := a3 _ h
      omega
    · rw [h] at b2
      omega

theorem classesMaximal_of_inv (g : GraphType) (idx : List Nat) (st : List Nat × Nat)
    (hsym : Symmetric g) (hI : ColorInv g idx st) (hO : OpenInv g idx st) :
    ClassesMaximal g idx st.1 := by
  intro u k hu hk1 hk2
  have hkm : k ≤ st.2 := by
    have := hI.2.1 u
    omega
  obtain ⟨_, _, _, hmax⟩ := open_firstPos g idx st hO k hk1 hkm
  obtain ⟨w, hw1, hw2, hw3⟩ := hmax u hu (Or.inr hk2)
  have hadj : Adj g w u := hw2
  exact ⟨w, adj_lt g w u hadj, hw1, hsym w u hadj, hadj, hw3⟩

theorem le_foldr_max (l : List Nat) : ∀ x ∈ l, x ≤ l.foldr max 0 := by
  induction l with
  | nil =>
    intro x hx
    simp at hx
  | cons a t ih =>
    intro x hx
    simp only [List.foldr_cons]
    rcases List.mem_cons.1 hx with h | h
    · rw [h]
      exact le_max_left _ _
    · exact le_trans (ih x h) (le_max_right _ _)

theorem degree_le_maxDegree (g : GraphType) (u : Nat) (hu : u < g.length) :
    (g.getD u ∅).card ≤ maxDegree g := by
  apply le_foldr_max
  rw [List.getD_eq_getElem g ∅ hu]
  exact List.mem_map.2 ⟨g[u], List.getElem_mem hu, rfl⟩

theorem maxColor_le_degree (g : GraphType) (idx : List Nat) (st : List Nat × Nat)
    (hsym : Symmetric g) (hI : ColorInv g idx st) (hO : OpenInv g idx st) :
    st.2 ≤ maxDegree g + 1 := by
  by_cases hm : st.2 = 0
  · omega
  · obtain ⟨u, hu⟩ := hI.2.2.2.1 st.2 (by omega) (Nat.le_refl _)
    have hul : u < g.length := by
      rw [← hI.1]
      exact getD_ne_zero_lt st.1 u (by
        simp only [colorOf] at hu
        omega)
    have hcm := classesMaximal_of_inv g idx st hsym hI hO
    have hex : ∀ k, k ∈ Finset.Icc 1 (st.2 - 1) →
        ∃ w, colorOf st.1 w = k ∧ w + 1 ∈ g.getD u ∅ := by
      intro k hk
      rw [Finset.mem_Icc] at hk
      obtain ⟨w, _, hw1, hw2, _, _⟩ := hcm u k hul hk.1 (by omega)
      exact ⟨w, hw1, hw2⟩
    have hcard : (Finset.Icc 1 (st.2 - 1)).card ≤ (g.getD u ∅).card := by
      apply Finset.card_le_card_of_injOn
        (fun k => if h : k ∈ Finset.Icc 1 (st.2 - 1) then (hex k h).choose + 1 else 0)
      · intro k hk
        have hk1 : k ∈ Finset.Icc 1 (st.2 - 1) := hk
        simp only [hk1, dite_true]
        exact (hex k hk1).choose_spec.2
      · intro a ha b hb hab
        have ha1 : a ∈ Finset.Icc 1 (st.2 - 1) := ha
        have hb1 : b ∈ Finset.Icc 1 (st.2 - 1) := hb
        simp only [ha1, hb1, dite_true] at hab
        have hw : (hex a ha1).choose = (hex b hb1).choose := by omega
        rw [← (hex a ha1).choose_spec.1, ← (hex b hb1).choose_spec.1, hw]
    rw [Nat.card_Icc] at hcard
    have := degree_le_maxDegree g u hul
    omega

theorem maxColor_le_length (g : GraphType) (idx : List Nat) (st : List Nat × Nat)
    (hp : idx.Perm (List.range g.length)) (hI : ColorInv g idx st) :
    st.2 ≤ g.length := by
  have h1 := List.toFinset_card_le st.1
  rw [colorInv_toFinset g idx st hp hI, Nat.card_Icc, hI.1] at h1
  omega

theorem edgeless_colors (g : GraphType) (idx : List Nat) (st : List Nat × Nat)
    (hN : 1 ≤ g.length) (hempty : ∀ x, g.getD x ∅ = ∅)
    (hp : idx.Perm (List.range g.length))
    (hI : ColorInv g idx st) (hO : OpenInv g idx st) :
    st = (List.replicate g.length 1, 1) := by
  have htot := colorInv_total g idx st hp hI
  have hone : ∀ u, u < g.length → colorOf st.1 u = 1 := by
    intro u hu
    by_contra hne
    have h0 := htot u hu
    have hle := hI.2.1 u
    obtain ⟨_, _, _, hmax⟩ := open_firstPos g idx st hO 1 (Nat.le_refl 1) (by omega)
    obtain ⟨w, _, hw, _⟩ := hmax u hu (Or.inr (by omega))
    rw [hempty w] at hw
    exact absurd hw (Finset.not_mem_empty _)
  have hm : st.2 = 1 := by
    have h1 := hI.2.1 0
    have h2 := hone 0 (by omega)
    by_contra hne
    obtain ⟨v, hv⟩ := hI.2.2.2.1 st.2 (by omega) (Nat.le_refl _)
    have hvl : v < g.length := by
      rw [← hI.1]
      exact getD_ne_zero_lt st.1 v (by
        simp only [colorOf] at hv
        omega)
    have := hone v hvl
    omega
  have hcs : st.1 = List.replicate g.length 1 := by
    rw [List.eq_replicate_iff]
    refine ⟨hI.1, ?_⟩
    intro b hb
    obtain ⟨v, hv⟩ := List.mem_iff_getElem?.1 hb
    have hvl : v < g.length := by
      rw [← hI.1]
      by_contra hlt
      rw [List.getElem?_eq_none (Nat.le_of_not_lt hlt)] at hv
      exact absurd hv (by simp)
    have := hone v hvl
    simp only [colorOf, List.getD_eq_getElem?_getD, hv, Option.getD_some] at this
    exact this
  exact Prod.ext hcs hm

/-! ## Sortedness, stability, safety -/

theorem graph_ext (g1 g2 : GraphType) (hlen : g1.length = g2.length)
    (h : ∀ x w, w ∈ g1.getD x ∅ ↔ w ∈ g2.getD x ∅) : g1 = g2 := by
  apply List.ext_getElem?
  intro n
  by_cases hn : n < g1.length
  · rw [getElem_opt_of_lt g1 n ∅ hn, getElem_opt_of_lt g2 n ∅ (by omega)]
    congr 1
    ext w
    exact h n w
  · rw [List.getElem?_eq_none (by omega), List.getElem?_eq_none (by omega)]

theorem sorted_getD (l : List Nat) (R : Nat → Nat → Prop) (h : l.Pairwise R) :
    ∀ p q, p < q → q < l.length → R (l.getD p 0) (l.getD q 0) := by
  intro p q hpq hq
  rw [List.pairwise_iff_getElem] at h
  rw [List.getD_eq_getElem l 0 hq, List.getD_eq_getElem l 0 (Nat.lt_trans hpq hq)]
  exact h p q (Nat.lt_trans hpq hq) hq hpq

theorem pair_sublist_range (a b n : Nat) (hab : a < b) (hb : b < n) :
    [a, b].Sublist (List.range n) := by
  have h : [a, b] = (List.range n).filter (fun x => decide (x = a ∨ x = b)) := by
    induction n with
    | zero => omega
    | succ k ih =>
      rw [List.range_succ, List.filter_append]
      by_cases hbk : b = k
      · subst hbk
        have h1 : (List.range b).filter (fun x => decide (x = a ∨ x = b)) = [a] := by
          have hz : ∀ j, a < j → j ≤ b →
              (List.range j).filter (fun x => decide (x = a ∨ x = b)) = [a] := by
            intro j
            induction j with
            | zero => intro h; omega
            | succ i ihi =>
              intro h1 h2
              rw [List.range_succ, List.filter_append]
              by_cases hia : i = a
              · subst hia
                have hn : (List.range i).filter (fun x => decide (x = i ∨ x = b)) = [] := by
                  rw [List.filter_eq_nil_iff]
                  intro x hx
                  have := List.mem_range.1 hx
                  simp only [decide_eq_true_eq]
                  omega
                rw [hn]
                simp
              · rw [ihi (by omega) (by omega)]
                have : ¬ (i = a ∨ i = b) := by omega
                simp [this]
          exact hz b hab (Nat.le_refl b)
        rw [h1]
        simp
      · rw [← ih (by omega)]
        have : ¬ (k = a ∨ k = b) := by omega
        simp [this]
  rw [h]
  exact List.filter_sublist _

theorem fillLoop_safe (g : GraphType) (m : Nat) (cs : List Nat) (b0 : Finset Nat)
    (hlen : cs.length = g.length) :
    ∃ fin, (List.range g.length).foldlM (fillStep g m) (cs, b0) = some fin ∧
      fin.1.length = g.length := by
  refine forRange_inv (fillStep g m)
    (fun _ (t : List Nat × Finset Nat) => t.1.length = g.length) g.length (cs, b0) hlen ?_
  rintro k ⟨cs1, b⟩ hk hl
  simp only at hl
  have e1 : cs1[k]? = some (cs1.getD k 0) := getElem_opt_of_lt cs1 k 0 (by omega)
  have e2 : g[k]? = some (g.getD k ∅) := getElem_opt_of_lt g k ∅ hk
  by_cases hcond : cs1.getD k 0 ≠ 0 ∨ k + 1 ∈ b
  · exact ⟨(cs1, b), by simp only [fillStep, e1, if_pos hcond], hl⟩
  · exact ⟨(cs1.set k m, b ∪ g.getD k ∅), by simp only [fillStep, e1, if_neg hcond, e2],
      by simpa using hl⟩

theorem colorLoop_safe (g : GraphType) (indexes : List Nat) (cs : List Nat) (m : Nat)
    (hidx : ∀ i ∈ indexes, i < g.length) (hlen : cs.length = g.length) :
    ∃ t, colorLoop g indexes cs m = some t ∧ t.1.length = g.length := by
  have key := foldlM_inv (colorStep g) (fun _ (t : List Nat × Nat) => t.1.length = g.length)
    indexes [] (cs, m) hlen (by
    intro d x rest t hd hl
    have hx : x ∈ indexes := by
      have : x ∈ [] ++ indexes := by
        rw [hd]
        simp
      simpa using this
    have hxl := hidx x hx
    have hl1 : t.1.length = g.length := hl
    have e1 : t.1[x]? = some (t.1.getD x 0) := getElem_opt_of_lt t.1 x 0 (by omega)
    have e2 : g[x]? = some (g.getD x ∅) := getElem_opt_of_lt g x ∅ hxl
    by_cases hcol : t.1.getD x 0 ≠ 0
    · exact ⟨t, by simp only [colorStep, e1, if_pos hcol], hl⟩
    · obtain ⟨fin, hfin, hfl⟩ := fillLoop_safe g (t.2 + 1) (t.1.set x (t.2 + 1))
        (g.getD x ∅) (by simpa using hl)
      exact ⟨(fin.1, t.2 + 1), by simp only [colorStep, e1, if_neg hcol, e2, hfin], hfl⟩)
  simpa [colorLoop] using key

theorem bucketShuffle_const (lib : StdLib) (clock : Nat → Nat) (g : GraphType)
    (l0 : List Nat) (hidx : ∀ i ∈ l0, i < g.length)
    (hconst : ∀ a ∈ l0, ∀ b ∈ l0, degree g a = degree g b) :
    bucketShuffle lib clock g l0 = some l0 := by
  have key := forRange_inv (bucketStep lib clock g)
    (fun _ (t : List Nat × Nat) => t = (l0, 0)) l0.length (l0, 0) rfl (by
      intro k t hk ht
      subst ht
      have e1 : l0[0]? = some (l0.getD 0 0) := getElem_opt_of_lt l0 0 0 (by omega)
      have e3 : l0[k]? = some (l0.getD k 0) := getElem_opt_of_lt l0 k 0 hk
      have ma : l0.getD 0 0 ∈ l0 := getD_mem_of_lt l0 0 (by omega)
      have mb : l0.getD k 0 ∈ l0 := getD_mem_of_lt l0 k hk
      have e2 : g[l0.getD 0 0]? = some (g.getD (l0.getD 0 0) ∅) :=
        getElem_opt_of_lt g _ ∅ (hidx _ ma)
      have e4 : g[l0.getD k 0]? = some (g.getD (l0.getD k 0) ∅) :=
        getElem_opt_of_lt g _ ∅ (hidx _ mb)
      have hcond : ¬ (g.getD (l0.getD 0 0) ∅).card ≠ (g.getD (l0.getD k 0) ∅).card := by
        intro h
        exact h (hconst _ ma _ mb)
      exact ⟨(l0, 0), by simp only [bucketStep, e1, e2, e3, e4, if_neg hcond], rfl⟩)
  obtain ⟨t, ht, hteq⟩ := key
  simp only [bucketShuffle, ht, hteq]

/-! ## The insertion sort of libstdc++ is a stable sort -/

theorem swo_asymm {comp : Nat → Nat → Bool} (h : StrictWeakOrdering comp) (a b : Nat)
    (hab : comp a b = true) : comp b a = false := by
  cases hba : comp b a
  · rfl
  · have := h.trans a b a hab hba
    rw [h.irrefl a] at this
    exact absurd this (by simp)

theorem swo_le_trans {comp : Nat → Nat → Bool} (h : StrictWeakOrdering comp) (a b d : Nat)
    (hab : comp b a = false) (hbd : comp d b = false) : comp d a = false := by
  cases hda : comp d a
  · rfl
  · exfalso
    cases h1 : comp a b
    · cases h2 : comp b d
      · have := (h.incomp_trans a b d h1 hab h2 hbd).2
        rw [hda] at this
        exact absurd this (by simp)
      · have := h.trans b d a h2 hda
        rw [hab] at this
        exact absurd this (by simp)
    · have := h.trans d a b hda h1
      rw [hbd] at this
      exact absurd this (by simp)

theorem unguardedLinearInsert_spec (comp : Nat → Nat → Bool) (val : Nat) :
    ∀ (before moved : List Nat), (∃ e ∈ before, comp val e = false) →
      ∃ L e R, before.reverse = L ++ e :: R ∧ comp val e = false ∧
        (∀ r ∈ R, comp val r = true) ∧
        unguardedLinearInsert comp val before moved = some (L ++ e :: val :: (R ++ moved)) := by
  intro before
  induction before with
  | nil =>
    intro moved h
    obtain ⟨e, he, _⟩ := h
    simp at he
  | cons x rest ih =>
    intro moved h
    by_cases hx : comp val x = true
    · have hrest : ∃ e ∈ rest, comp val e = false := by
        obtain ⟨e, he, hce⟩ := h
        rcases List.mem_cons.1 he with h1 | h1
        · rw [h1, hx] at hce
          exact absurd hce (by simp)
        · exact ⟨e, h1, hce⟩
      obtain ⟨L, e, R, hrev, hce, hR, hres⟩ := ih (x :: moved) hrest
      refine ⟨L, e, R ++ [x], ?_, hce, ?_, ?_⟩
      · simp [hrev]
      · intro r hr
        rcases List.mem_append.1 hr with h1 | h1
        · exact hR r h1
        · have : r = x := by simpa using h1
          rw [this]
          exact hx
      · simp only [unguardedLinearInsert, hx, if_true, hres]
        simp
    · have hx2 : comp val x = false := by
        cases hc : comp val x
        · rfl
        · exact absurd hc hx
      refine ⟨rest.reverse, x, [], by simp, hx2, by simp, ?_⟩
      simp [unguardedLinearInsert, hx2]

theorem insertionStep_spec (comp : Nat → Nat → Bool) (hswo : StrictWeakOrdering comp)
    (s : List Nat) (val : Nat) (hne : s ≠ [])
    (hs : s.Pairwise (fun a b => comp b a = false)) :
    ∃ L R, s = L ++ R ∧ insertionStep comp s val = some (L ++ val :: R) ∧
      (∀ x ∈ L, comp val x = false) ∧ (∀ r ∈ R, comp val r = true) := by
  cases s with
  | nil => exact absurd rfl hne
  | cons x rest =>
    by_cases hx : comp val x = true
    · refine ⟨[], x :: rest, rfl, by simp [insertionStep, hx], by simp, ?_⟩
      intro r hr
      cases hvr : comp val r
      · exfalso
        have hxr : comp r x = false := by
          rcases List.mem_cons.1 hr with h1 | h1
          · rw [h1]
            exact hswo.irrefl x
          · exact (List.pairwise_cons.1 hs).1 r h1
        have := swo_le_trans hswo x r val hxr hvr
        rw [hx] at this
        exact absurd this (by simp)
      · rfl
    · have hx2 : comp val x = false := by
        cases hc : comp val x
        · rfl
        · exact absurd hc hx
      obtain ⟨L, e, R, hrev, hce, hR, hres⟩ := unguardedLinearInsert_spec comp val
        (x :: rest).reverse [] ⟨x, by simp, hx2⟩
      have hsplit : x :: rest = (L ++ [e]) ++ R := by
        have := hrev
        simp only [List.reverse_reverse] at this
        rw [this]
        simp
      refine ⟨L ++ [e], R, hsplit, ?_, ?_, hR⟩
      · simp only [insertionStep, hx2, hres]
        simp
      · intro y hy
        rcases List.mem_append.1 hy with h1 | h1
        · have hsorted := hs
          rw [hsplit, List.append_assoc] at hsorted
          have hye : comp e y = false :=
            (List.pairwise_append.1 hsorted).2.2 y h1 e (by simp)
          exact swo_le_trans hswo y e val hye hce
        · have : y = e := by simpa using h1
          rw [this]
          exact hce

theorem pair_sublist_snoc {a b x : Nat} {l : List Nat} (h : [a, b].Sublist (l ++ [x])) :
    [a, b].Sublist l ∨ (a ∈ l ∧ b = x) := by
  obtain ⟨l1, l2, heq, h1, h2⟩ := List.sublist_append_iff.1 h
  have hl2 : l2 = [] ∨ l2 = [x] := by
    cases h2 with
    | cons _ h3 => exact Or.inl (List.eq_nil_of_sublist_nil h3)
    | cons₂ _ h3 =>
      rw [List.eq_nil_of_sublist_nil h3]
      exact Or.inr rfl
  rcases hl2 with h3 | h3
  · left
    rw [h3, List.append_nil] at heq
    rw [heq]
    exact h1
  · right
    rw [h3] at heq
    have hl1 : l1 = [a] ∧ b = x := by
      cases l1 with
      | nil => simp at heq
      | cons y t =>
        cases t with
        | nil =>
          simp at heq
          exact ⟨by rw [heq.1], heq.2⟩
        | cons z u =>
          have := congrArg List.length heq
          simp at this
    rw [hl1.1] at h1
    exact ⟨List.singleton_sublist.1 h1, hl1.2⟩

theorem gnuInsertionSort_spec (comp : Nat → Nat → Bool) (hswo : StrictWeakOrdering comp)
    (v : List Nat) :
    ∃ l, gnuInsertionSort comp v = some l ∧ l.Perm v ∧
      l.Pairwise (fun a b => comp b a = false) ∧
      ∀ a b, [a, b].Sublist v → comp b a = false → [a, b].Sublist l := by
  cases v with
  | nil => exact ⟨[], rfl, List.Perm.refl _, List.Pairwise.nil, fun a b h _ => h⟩
  | cons x rest =>
    have key := foldlM_inv (insertionStep comp)
      (fun d s => s ≠ [] ∧ s.Perm (x :: d) ∧ s.Pairwise (fun a b => comp b a = false) ∧
        ∀ a b, [a, b].Sublist (x :: d) → comp b a = false → [a, b].Sublist s)
      rest [] [x]
      ⟨by simp, List.Perm.refl _, List.pairwise_singleton _ _, fun a b h _ => h⟩
      (by
        intro d val rst s _ hInv
        obtain ⟨hne, hperm, hsorted, hstable⟩ := hInv
        obtain ⟨L, R, hsplit, hstep, hL, hR⟩ := insertionStep_spec comp hswo s val hne hsorted
        have hsub : s.Sublist (L ++ val :: R) := by
          rw [hsplit]
          exact List.Sublist.append (List.Sublist.refl L) (List.sublist_cons_self val R)
        refine ⟨L ++ val :: R, hstep, by simp, ?_, ?_, ?_⟩
        · have h1 : (L ++ val :: R).Perm (val :: s) := by
            rw [hsplit]
            exact List.perm_middle
          have h2 : (val :: s).Perm (x :: (d ++ [val])) := by
            have h3 : (val :: s).Perm (val :: (x :: d)) := hperm.cons val
            have h4 : (val :: (x :: d)).Perm ((x :: d) ++ [val]) :=
              (List.perm_append_singleton val (x :: d)).symm
            exact h3.trans h4
          exact h1.trans h2
        · rw [hsplit] at hsorted
          obtain ⟨p1, p2, p3⟩ := List.pairwise_append.1 hsorted
          rw [List.pairwise_append]
          refine ⟨p1, ?_, ?_⟩
          · rw [List.pairwise_cons]
            exact ⟨fun r hr => swo_asymm hswo val r (hR r hr), p2⟩
          · intro a ha b hb
            rcases List.mem_cons.1 hb with h1 | h1
            · rw [h1]
              exact hL a ha
            · exact p3 a ha b h1
        · intro a b hab hcomp
          have hab2 : [a, b].Sublist ((x :: d) ++ [val]) := by simpa using hab
          rcases pair_sublist_snoc hab2 with h1 | ⟨h1, h2⟩
          · exact (hstable a b h1 hcomp).trans hsub
          · have has : a ∈ s := hperm.symm.subset h1
            rw [hsplit] at has
            rw [h2] at hcomp ⊢
            rcases List.mem_append.1 has with h3 | h3
            · have e1 : [a, val] = [a] ++ [val] := rfl
              rw [e1]
              exact List.Sublist.append (List.singleton_sublist.2 h3)
                (List.singleton_sublist.2 (List.mem_cons_self _ _))
            · have := hR a h3
              rw [hcomp] at this
              exact absurd this (by simp))
    obtain ⟨l, hl, _, hperm, hsorted, hstable⟩ := key
    exact ⟨l, hl, by simpa using hperm, hsorted, by simpa using hstable⟩

theorem gnuSort_short (comp : Nat → Nat → Bool) (v : List Nat) (hlen : v.length ≤ 16) :
    gnuSort comp v = gnuInsertionSort comp v := by
  cases v with
  | nil => rfl
  | cons x rest =>
    have hnot : ¬ ((x :: rest).length - 0 > 16) := by
      simp only [Nat.sub_zero]
      omega
    have hloop : ∀ d, introsortLoop comp d (x :: rest) 0 (x :: rest).length
        = some (x :: rest) := by
      intro d
      cases d with
      | zero => simp only [introsortLoop, if_neg hnot]
      | succ k => simp only [introsortLoop, if_neg hnot]
    have hfin : finalInsertionSort comp (x :: rest) = gnuInsertionSort comp (x :: rest) := by
      have h16 : ¬ ((x :: rest).length > 16) := by omega
      simp only [finalInsertionSort, if_neg h16]
    simp only [gnuSort, hloop, hfin]

theorem gnuLib_sort_short (lib : StdLib) (comp : Nat → Nat → Bool)
    (hswo : StrictWeakOrdering comp) (v : List Nat) (hlen : v.length ≤ 16) :
    ∃ l, gnuSort comp v = some l ∧ (gnuLib lib).sort comp v = l ∧ l.Perm v ∧
      l.Pairwise (fun a b => comp b a = false) ∧
      ∀ a b, [a, b].Sublist v → comp b a = false → [a, b].Sublist l := by
  obtain ⟨l, hl, hperm, hsorted, hstable⟩ := gnuInsertionSort_spec comp hswo v
  have hg : gnuSort comp v = some l := by rw [gnuSort_short comp v hlen, hl]
  have hc : SortedRearrangement comp v l := ⟨hperm, hsorted⟩
  refine ⟨l, hg, ?_, hperm, hsorted, hstable⟩
  simp only [gnuLib, hg, if_pos hc]

/-! ## The stable order is unique; the last run of the bucket loop -/

theorem nodup_no_swap (l : List Nat) (hnd : l.Nodup) (a b : Nat)
    (h1 : [a, b].Sublist l) (h2 : [b, a].Sublist l) : False := by
  induction l with
  | nil => simp at h1
  | cons x t ih =>
    obtain ⟨hx, ht⟩ := List.nodup_cons.1 hnd
    cases h1 with
    | cons _ h1t =>
      cases h2 with
      | cons _ h2t => exact ih ht h1t h2t
      | cons₂ _ h2t => exact hx (h1t.subset (by simp))
    | cons₂ _ h1t =>
      cases h2 with
      | cons _ h2t => exact hx (h2t.subset (by simp))
      | cons₂ _ h2t => exact hx (List.singleton_sublist.1 h1t)

theorem stable_order_unique (comp : Nat → Nat → Bool) (hswo : StrictWeakOrdering comp)
    (n : Nat) (l1 l2 : List Nat)
    (hp1 : l1.Perm (List.range n)) (hp2 : l2.Perm (List.range n))
    (hs1 : l1.Pairwise (fun a b => comp b a = false))
    (hs2 : l2.Pairwise (fun a b => comp b a = false))
    (ht1 : ∀ a b, a < b → b < n → comp a b = false → comp b a = false → [a, b].Sublist l1)
    (ht2 : ∀ a b, a < b → b < n → comp a b = false → comp b a = false → [a, b].Sublist l2) :
    l1 = l2 := by
  have hstrict : ∀ l : List Nat, l.Perm (List.range n) →
      l.Pairwise (fun a b => comp b a = false) →
      (∀ a b, a < b → b < n → comp a b = false → comp b a = false → [a, b].Sublist l) →
      l.Pairwise (fun a b =>
        comp a b = true ∨ (comp a b = false ∧ comp b a = false ∧ a ≤ b)) := by
    intro l hp hs ht
    have hnd : l.Nodup := hp.symm.nodup_iff.1 (List.nodup_range n)
    rw [List.pairwise_iff_forall_sublist]
    intro a b hab
    have hba : comp b a = false := (List.pairwise_iff_forall_sublist.1 hs) hab
    cases hc : comp a b
    · right
      refine ⟨rfl, hba, ?_⟩
      by_contra hle
      have hlt : b < a := by omega
      have han : a < n := List.mem_range.1 (hp.subset (hab.subset (by simp)))
      exact nodup_no_swap l hnd a b hab (ht b a hlt han hba hc)
    · exact Or.inl rfl
  haveI : IsAntisymm Nat (fun a b =>
      comp a b = true ∨ (comp a b = false ∧ comp b a = false ∧ a ≤ b)) := by
    refine ⟨fun a b hab hba => ?_⟩
    rcases hab with h1 | h1
    · exfalso
      rcases hba with h2 | h2
      · have := swo_asymm hswo a b h1
        rw [h2] at this
        exact absurd this (by simp)
      · have := h2.2.1
        rw [h1] at this
        exact absurd this (by simp)
    · rcases hba with h2 | h2
      · exfalso
        have := h1.2.1
        rw [h2] at this
        exact absurd this (by simp)
      · exact Nat.le_antisymm h1.2.2 h2.2.2
  exact List.eq_of_perm_of_sorted (hp1.trans hp2.symm) (hstrict l1 hp1 hs1 ht1)
    (hstrict l2 hp2 hs2 ht2)

theorem getD_of_drop_eq (l l0 : List Nat) (lb j : Nat) (h : l.drop lb = l0.drop lb)
    (hj : lb ≤ j) : l.getD j 0 = l0.getD j 0 := by
  have h1 : (l.drop lb)[j - lb]? = (l0.drop lb)[j - lb]? := by rw [h]
  rw [List.getElem?_drop, List.getElem?_drop] at h1
  have h2 : lb + (j - lb) = j := by omega
  rw [h2] at h1
  simp only [List.getD_eq_getElem?_getD, h1]

theorem bucketShuffle_tail (lib : StdLib) (clock : Nat → Nat) (g : GraphType)
    (l0 : List Nat) (hidx : ∀ i ∈ l0, i < g.length) :
    ∃ l lb, bucketShuffle lib clock g l0 = some l ∧ lb ≤ l0.length ∧
      (1 ≤ l0.length → lb < l0.length) ∧
      l.drop lb = l0.drop lb ∧
      (∀ j, lb ≤ j → j < l0.length →
        degree g (l0.getD j 0) = degree g (l0.getD lb 0)) ∧
      (lb = 0 ∨ degree g (l0.getD (lb - 1) 0) ≠ degree g (l0.getD lb 0)) := by
  have key := forRange_inv (bucketStep lib clock g)
    (fun k (t : List Nat × Nat) =>
      t.1.Perm l0 ∧ t.2 ≤ k ∧ (k = 0 ∨ t.2 < k) ∧
      t.1.drop t.2 = l0.drop t.2 ∧
      (∀ j, t.2 ≤ j → j < k → degree g (l0.getD j 0) = degree g (l0.getD t.2 0)) ∧
      (t.2 = 0 ∨ degree g (l0.getD (t.2 - 1) 0) ≠ degree g (l0.getD t.2 0)))
    l0.length (l0, 0)
    ⟨List.Perm.refl _, Nat.le_refl 0, Or.inl rfl, rfl, by
      intro j _ hj
      omega, Or.inl rfl⟩
    (by
      rintro k ⟨l, lb⟩ hk ⟨hp, hle, hlt, hdrop, hseg, hstart⟩
      simp only at hp hle hlt hdrop hseg hstart
      have hlen : l.length = l0.length := hp.length_eq
      have hkl : k < l.length := by omega
      have hlbl : lb < l.length := by omega
      have e1 : l[lb]? = some (l.getD lb 0) := getElem_opt_of_lt l lb 0 hlbl
      have e3 : l[k]? = some (l.getD k 0) := getElem_opt_of_lt l k 0 hkl
      have ha : l.getD lb 0 < g.length :=
        hidx _ (hp.subset (List.mem_iff_getElem?.2 ⟨lb, e1⟩))
      have hb : l.getD k 0 < g.length :=
        hidx _ (hp.subset (List.mem_iff_getElem?.2 ⟨k, e3⟩))
      have e2 : g[l.getD lb 0]? = some (g.getD (l.getD lb 0) ∅) :=
        getElem_opt_of_lt g _ ∅ ha
      have e4 : g[l.getD k 0]? = some (g.getD (l.getD k 0) ∅) :=
        getElem_opt_of_lt g _ ∅ hb
      have hlb0 : l.getD lb 0 = l0.getD lb 0 := getD_of_drop_eq l l0 lb lb hdrop (Nat.le_refl _)
      have hk0 : l.getD k 0 = l0.getD k 0 := getD_of_drop_eq l l0 lb k hdrop hle
      by_cases hcond : (g.getD (l.getD lb 0) ∅).card ≠ (g.getD (l.getD k 0) ∅).card
      · have hdiff : degree g (l0.getD lb 0) ≠ degree g (l0.getD k 0) := by
          rw [← hlb0, ← hk0]
          exact hcond
        have hk1 : 1 ≤ k := by
          by_contra h0
          have hkz : k = 0 := by omega
          have hlbz : lb = 0 := by omega
          rw [hkz, hlbz] at hdiff
          exact hdiff rfl
        refine ⟨(shuffleRange lib (clock k) l lb k, k), ?_, ?_, Nat.le_succ k,
          Or.inr (Nat.lt_succ_self k), ?_, ?_, ?_⟩
        · simp only [bucketStep, e1, e2, e3, e4, if_pos hcond]
        · exact (shuffleRange_perm lib (clock k) l lb k hle).trans hp
        · have hl1 : (l.take lb ++ lib.shuffle (clock k) ((l.drop lb).take (k - lb))).length
              = k := by
            rw [List.length_append, (lib.shuffle_perm _ _).length_eq, List.length_take,
              List.length_take, List.length_drop]
            omega
          have h1 : (shuffleRange lib (clock k) l lb k).drop k = l.drop k := by
            unfold shuffleRange
            exact List.drop_left' hl1
          have h2 : l.drop k = l0.drop k := by
            have h3 : lb + (k - lb) = k := by omega
            have h4 : k - lb + lb = k := by omega
            have := congrArg (List.drop (k - lb)) hdrop
            rw [List.drop_drop, List.drop_drop] at this
            simp only [h3, h4] at this
            exact this
          show (shuffleRange lib (clock k) l lb k).drop k = l0.drop k
          rw [h1, h2]
        · intro j hj1 hj2
          have : j = k := by
            simp only at hj1
            omega
          rw [this]
        · right
          show degree g (l0.getD (k - 1) 0) ≠ degree g (l0.getD k 0)
          have hlbk : lb < k := by
            rcases hlt with h | h
            · omega
            · exact h
          rw [hseg (k - 1) (by omega) (by omega)]
          exact hdiff
      · have hsame : degree g (l0.getD lb 0) = degree g (l0.getD k 0) := by
          rw [← hlb0, ← hk0]
          by_contra h0
          exact hcond h0
        refine ⟨(l, lb), ?_, hp, Nat.le_succ_of_le hle, Or.inr (by omega), hdrop, ?_, hstart⟩
        · simp only [bucketStep, e1, e2, e3, e4, if_neg hcond]
        · intro j hj1 hj2
          by_cases hjk : j = k
          · rw [hjk]
            exact hsame.symm
          · exact hseg j hj1 (by omega))
  obtain ⟨t, ht, _, hle, hlt, hdrop, hseg, hstart⟩ := key
  refine ⟨t.1, t.2, ?_, hle, ?_, hdrop, hseg, hstart⟩
  · simp only [bucketShuffle, ht]
  · intro h1
    rcases hlt with h | h
    · omega
    · exact h

/-! ## Edgeless graphs, the order of the colours, maximal classes, the greedy bound -/

/-- C11 (end-to-end, edgeless graph). For every `N ≥ 1`, `ReadFile` on the
file `p N M` without edge lines returns the fresh state of the graph with `N`
vertices and empty neighbour sets; from it `GreedyColoring` returns, for
every library, clock and `SortOrder`, a state with `maxColor = 1` and
`colors[v] = 1` for every vertex; and the colouring loop run on any
rearrangement of `0..N-1` as `indexes` ends with all colours `1` and
`maxColor = 1`. -/
theorem edgeless_one_color (N M : Nat) (hN : 1 ≤ N) :
    ∃ s, ReadFile ColorigProblem.init (edgeFile N M []) = some s ∧
      s.graph = List.replicate N ∅ ∧
      (∀ (lib : StdLib) (clock : Nat → Nat) (order : SortOrder),
        ∃ s1, GreedyColoring lib clock order s = some s1 ∧
          getMaxColor s1 = 1 ∧ s1.colors = List.replicate N 1 ∧
          ∀ v, v < N → colorOf s1.colors v = 1) ∧
      (∀ indexes : List Nat, indexes.Perm (List.range N) →
        colorLoop s.graph indexes s.colors s.maxColor = some (List.replicate N 1, 1)) := by
  obtain ⟨g, hread, hlen, hmem⟩ := ReadFile_spec N M [] (by
    intro e he
    simp at he)
  have hempty : ∀ x, g.getD x ∅ = ∅ := by
    intro x
    rw [Finset.eq_empty_iff_forall_not_mem]
    intro w hw
    obtain ⟨e, he, _⟩ := (hmem x w).1 hw
    simp at he
  have hg : g = List.replicate N ∅ := by
    rw [List.eq_replicate_iff]
    refine ⟨hlen, ?_⟩
    intro b hb
    obtain ⟨x, hx⟩ := List.mem_iff_getElem?.1 hb
    have := hempty x
    simpa [List.getD_eq_getElem?_getD, hx] using this
  have hN1 : 1 ≤ g.length := by omega
  refine ⟨fresh g, hread, hg, ?_, ?_⟩
  · intro lib clock order
    obtain ⟨idx, cs, m, hrun, hp, hI, hO⟩ := greedy_fresh_open lib clock order g
    have h := edgeless_colors g idx (cs, m) hN1 hempty hp hI hO
    have hcs : cs = List.replicate N 1 := by
      rw [← hlen]
      exact (Prod.ext_iff.1 h).1
    have hm : m = 1 := (Prod.ext_iff.1 h).2
    refine ⟨_, hrun, hm, hcs, ?_⟩
    intro v hv
    simp only [colorOf, hcs, List.getD_eq_getElem?_getD, List.getElem?_replicate, if_pos hv,
      Option.getD_some]
  · intro indexes hp
    rw [← hlen] at hp
    obtain ⟨t, ht, hI, hO⟩ := colorLoop_open g indexes (List.replicate g.length 0, 0)
      (mem_range_lt hp) (colorInv_fresh g) (openInv_fresh g)
    have h := edgeless_colors g indexes t hN1 hempty hp hI hO
    have h2 : t = (List.replicate N 1, 1) := by rw [h, hlen]
    rw [h2] at ht
    exact ht

/-- Witness of C11: three vertices without edges. -/
theorem edgeless_one_color_witness :
    1 ≤ 3 ∧
    ∃ s, ReadFile ColorigProblem.init (edgeFile 3 0 []) = some s ∧
      s.graph = List.replicate 3 ∅ ∧
      (∀ (lib : StdLib) (clock : Nat → Nat) (order : SortOrder),
        ∃ s1, GreedyColoring lib clock order s = some s1 ∧
          getMaxColor s1 = 1 ∧ s1.colors = List.replicate 3 1 ∧
          ∀ v, v < 3 → colorOf s1.colors v = 1) ∧
      (∀ indexes : List Nat, indexes.Perm (List.range 3) →
        colorLoop s.graph indexes s.colors s.maxColor = some (List.replicate 3 1, 1)) :=
  ⟨by decide, edgeless_one_color 3 0 (by decide)⟩

/-- C16 (colours are opened in the order of the permutation). For every
graph with `N ≥ 1` vertices, after `GreedyColoring` from the fresh state the
first vertex of `indexes` has colour `1`, and for every colour `k` in
`1..maxColor-1` the earliest position of `indexes` holding a vertex of colour
`k` is strictly smaller than the earliest position holding a vertex of colour
`k + 1`; the same holds for the colouring loop run on any rearrangement of
`0..N-1` as `indexes`. -/
theorem colors_opened_in_order (lib : StdLib) (clock : Nat → Nat) (order : SortOrder)
    (g : GraphType) (hN : 1 ≤ g.length) :
    (∃ s1, GreedyColoring lib clock order (fresh g) = some s1 ∧
      OpenedInOrder s1.indexes s1.colors s1.maxColor) ∧
    (∀ indexes : List Nat, indexes.Perm (List.range g.length) →
      ∃ t, colorLoop g indexes (List.replicate g.length 0) 0 = some t ∧
        OpenedInOrder indexes t.1 t.2) := by
  constructor
  · obtain ⟨idx, cs, m, hrun, hp, hI, hO⟩ := greedy_fresh_open lib clock order g
    exact ⟨_, hrun, openedInOrder_of_inv g idx (cs, m) hN hp hI hO⟩
  · intro indexes hp
    obtain ⟨t, ht, hI, hO⟩ := colorLoop_open g indexes (List.replicate g.length 0, 0)
      (mem_range_lt hp) (colorInv_fresh g) (openInv_fresh g)
    exact ⟨t, ht, openedInOrder_of_inv g indexes t hN hp hI hO⟩

/-- Witness of C16: a triangle `0, 1, 2` with a pendant vertex `3` on `2`,
insertion sort, `DESC`: `indexes = 2, 0, 1, 3`, `colors = 2, 3, 1, 2`, and the
colours `1, 2, 3` first occur at the positions `0, 1, 2`. -/
theorem colors_opened_in_order_witness :
    ((GreedyColoring insertionLib id SortOrder.DESC
        (fresh [{2, 3}, {1, 3}, {1, 2, 4}, {3}])).map
        (fun s => (s.indexes, s.colors, s.maxColor,
          [1, 2, 3].map (firstPos s.indexes s.colors)))
      = some ([2, 0, 1, 3], [2, 3, 1, 2], 3, [0, 1, 2])) ∧
    1 ≤ ([{2, 3}, {1, 3}, {1, 2, 4}, {3}] : GraphType).length ∧
    ((∃ s1, GreedyColoring insertionLib id SortOrder.DESC
        (fresh [{2, 3}, {1, 3}, {1, 2, 4}, {3}]) = some s1 ∧
      OpenedInOrder s1.indexes s1.colors s1.maxColor) ∧
    (∀ indexes : List Nat,
      indexes.Perm (List.range ([{2, 3}, {1, 3}, {1, 2, 4}, {3}] : GraphType).length) →
      ∃ t, colorLoop [{2, 3}, {1, 3}, {1, 2, 4}, {3}] indexes
          (List.replicate ([{2, 3}, {1, 3}, {1, 2, 4}, {3}] : GraphType).length 0) 0 = some t ∧
        OpenedInOrder indexes t.1 t.2)) :=
  ⟨by decide, by decide,
   colors_opened_in_order insertionLib id SortOrder.DESC [{2, 3}, {1, 3}, {1, 2, 4}, {3}]
     (by decide)⟩

/-- C17 (each colour class is filled in id order and is maximal). For every
graph with symmetric adjacency, after `GreedyColoring` from the fresh state,
every vertex `u` of colour `c` has, for every colour `k` with `1 ≤ k < c`, a
neighbour `w` with `colors[w] = k` that is the earliest vertex of colour `k`
in `indexes` (the one that opened `k`) or has a smaller id than `u`; the same
holds for the colouring loop run on any rearrangement of `0..N-1`. -/
theorem color_classes_maximal (lib : StdLib) (clock : Nat → Nat) (order : SortOrder)
    (g : GraphType) (hsym : Symmetric g) :
    (∃ s1, GreedyColoring lib clock order (fresh g) = some s1 ∧
      ClassesMaximal g s1.indexes s1.colors) ∧
    (∀ indexes : List Nat, indexes.Perm (List.range g.length) →
      ∃ t, colorLoop g indexes (List.replicate g.length 0) 0 = some t ∧
        ClassesMaximal g indexes t.1) := by
  constructor
  · obtain ⟨idx, cs, m, hrun, _, hI, hO⟩ := greedy_fresh_open lib clock order g
    exact ⟨_, hrun, classesMaximal_of_inv g idx (cs, m) hsym hI hO⟩
  · intro indexes hp
    obtain ⟨t, ht, hI, hO⟩ := colorLoop_open g indexes (List.replicate g.length 0, 0)
      (mem_range_lt hp) (colorInv_fresh g) (openInv_fresh g)
    exact ⟨t, ht, classesMaximal_of_inv g indexes t hsym hI hO⟩

theorem symmetric_trianglePendant :
    Symmetric [{2, 3}, {1, 3}, {1, 2, 4}, {3}] := by
  intro a b h
  have ha := adj_lt _ a b h
  simp only [List.length_cons, List.length_nil] at ha
  unfold Adj at h ⊢
  interval_cases a
  · have hb : b = 1 ∨ b = 2 := by
      simp [List.getD_eq_getElem?_getD] at h
      omega
    rcases hb with rfl | rfl <;> decide
  · have hb : b = 0 ∨ b = 2 := by
      simp [List.getD_eq_getElem?_getD] at h
      omega
    rcases hb with rfl | rfl <;> decide
  · have hb : b = 0 ∨ b = 1 ∨ b = 3 := by
      simp [List.getD_eq_getElem?_getD] at h
      omega
    rcases hb with rfl | rfl | rfl <;> decide
  · have hb : b = 2 := by
      simp [List.getD_eq_getElem?_getD] at h
      omega
    subst hb
    decide

/-- Witness of C17: the triangle with a pendant vertex, insertion sort,
`DESC`; `indexes = 2, 0, 1, 3` and `colors = 2, 3, 1, 2`. -/
theorem color_classes_maximal_witness :
    ((GreedyColoring insertionLib id SortOrder.DESC
        (fresh [{2, 3}, {1, 3}, {1, 2, 4}, {3}])).map (fun s => (s.indexes, s.colors))
      = some ([2, 0, 1, 3], [2, 3, 1, 2])) ∧
    Symmetric [{2, 3}, {1, 3}, {1, 2, 4}, {3}] ∧
    ((∃ s1, GreedyColoring insertionLib id SortOrder.DESC
        (fresh [{2, 3}, {1, 3}, {1, 2, 4}, {3}]) = some s1 ∧
      ClassesMaximal [{2, 3}, {1, 3}, {1, 2, 4}, {3}] s1.indexes s1.colors) ∧
    (∀ indexes : List Nat,
      indexes.Perm (List.range ([{2, 3}, {1, 3}, {1, 2, 4}, {3}] : GraphType).length) →
      ∃ t, colorLoop [{2, 3}, {1, 3}, {1, 2, 4}, {3}] indexes
          (List.replicate ([{2, 3}, {1, 3}, {1, 2, 4}, {3}] : GraphType).length 0) 0 = some t ∧
        ClassesMaximal [{2, 3}, {1, 3}, {1, 2, 4}, {3}] indexes t.1)) :=
  ⟨by decide, symmetric_trianglePendant,
   color_classes_maximal insertionLib id SortOrder.DESC [{2, 3}, {1, 3}, {1, 2, 4}, {3}]
     symmetric_trianglePendant⟩

/-- C18 (greedy bound). For a file with the problem line `p N M` and edges
with endpoints in `1..N`, after `GreedyColoring` from the state `ReadFile`
returns, `maxColor` is at most the largest `graph[v].size()` plus one, and at
most `N`. -/
theorem greedy_bound (lib : StdLib) (clock : Nat → Nat) (order : SortOrder)
    (N M : Nat) (edges : List (Nat × Nat)) (hE : EdgesInRange N edges) :
    ∃ s s1, ReadFile ColorigProblem.init (edgeFile N M edges) = some s ∧
      GreedyColoring lib clock order s = some s1 ∧
      getMaxColor s1 ≤ maxDegree s.graph + 1 ∧
      getMaxColor s1 ≤ N := by
  obtain ⟨g, hread, hlen, hmem⟩ := ReadFile_spec N M edges hE
  obtain ⟨idx, cs, m, hrun, hp, hI, hO⟩ := greedy_fresh_open lib clock order g
  have hsym := symmetric_of_edges g edges hmem
  refine ⟨fresh g, _, hread, hrun, ?_, ?_⟩
  · exact maxColor_le_degree g idx (cs, m) hsym hI hO
  · rw [← hlen]
    exact maxColor_le_length g idx (cs, m) hp hI

/-- Witness of C18: the triangle with a pendant vertex; the largest degree
is `3`. -/
theorem greedy_bound_witness :
    EdgesInRange 4 [(1, 2), (1, 3), (2, 3), (3, 4)] ∧
    ∃ s s1, ReadFile ColorigProblem.init (edgeFile 4 4 [(1, 2), (1, 3), (2, 3), (3, 4)])
        = some s ∧
      GreedyColoring insertionLib id SortOrder.DESC s = some s1 ∧
      getMaxColor s1 ≤ maxDegree s.graph + 1 ∧
      getMaxColor s1 ≤ 4 :=
  ⟨by unfold EdgesInRange; decide,
   greedy_bound insertionLib id SortOrder.DESC 4 4 [(1, 2), (1, 3), (2, 3), (3, 4)]
     (by unfold EdgesInRange; decide)⟩

/-! ## The adjacency, the degree orders, the tie buckets -/

/-- C12 (graph symmetry). For every `N` and every list of edges with
endpoints in `1..N`, `ReadFile` returns a state whose adjacency has `N` rows,
holds `w` in row `a` exactly when some edge line joins `a + 1` and `w`, and is
symmetric in its own encoding: `b + 1` is in `graph[a]` if and only if `a + 1`
is in `graph[b]`.  A second list with the same edges, whatever their
multiplicity and order, gives the same state. -/
theorem adjacency_symmetric (N M M2 : Nat) (edges edges2 : List (Nat × Nat))
    (hE : EdgesInRange N edges) (hsame : ∀ e, e ∈ edges2 ↔ e ∈ edges) :
    ∃ s, ReadFile ColorigProblem.init (edgeFile N M edges) = some s ∧
      s.graph.length = N ∧
      (∀ a w, w ∈ s.graph.getD a ∅ ↔
        ∃ e ∈ edges, (a + 1 = e.1 ∧ w = e.2) ∨ (a + 1 = e.2 ∧ w = e.1)) ∧
      (∀ a b, a < N → b < N → (b + 1 ∈ s.graph.getD a ∅ ↔ a + 1 ∈ s.graph.getD b ∅)) ∧
      ReadFile ColorigProblem.init (edgeFile N M2 edges2) = some s := by
  obtain ⟨g, hread, hlen, hmem⟩ := ReadFile_spec N M edges hE
  obtain ⟨g2, hread2, hlen2, hmem2⟩ := ReadFile_spec N M2 edges2 (by
    intro e he
    exact hE e ((hsame e).1 he))
  have hsym := symmetric_of_edges g edges hmem
  have hgg : g2 = g := by
    apply graph_ext g2 g (by omega)
    intro x w
    rw [hmem, hmem2]
    constructor
    · rintro ⟨e, he, h⟩
      exact ⟨e, (hsame e).1 he, h⟩
    · rintro ⟨e, he, h⟩
      exact ⟨e, (hsame e).2 he, h⟩
  refine ⟨fresh g, hread, hlen, hmem, ?_, ?_⟩
  · intro a b _ _
    exact ⟨fun h => hsym a b h, fun h => hsym b a h⟩
  · rw [hread2, hgg]

/-- Witness of C12: the path `1 - 2 - 3`, and the same edges with `1 2`
repeated and `2 3` first; in both cases the rows hold `2`, then `1, 3`, then
`2`. -/
theorem adjacency_symmetric_witness :
    ((ReadFile ColorigProblem.init (edgeFile 3 2 [(1, 2), (2, 3)])).map
        (fun s => s.graph.map (fun row => (List.range 4).filter (fun w => decide (w ∈ row))))
        = some [[2], [1, 3], [2]] ∧
      (ReadFile ColorigProblem.init (edgeFile 3 4 [(2, 3), (1, 2), (1, 2), (1, 2)])).map
        (fun s => s.graph.map (fun row => (List.range 4).filter (fun w => decide (w ∈ row))))
        = some [[2], [1, 3], [2]]) ∧
    EdgesInRange 3 [(1, 2), (2, 3)] ∧
    (∀ e, e ∈ [(2, 3), (1, 2), (1, 2), (1, 2)] ↔ e ∈ [(1, 2), (2, 3)]) ∧
    ∃ s, ReadFile ColorigProblem.init (edgeFile 3 2 [(1, 2), (2, 3)]) = some s ∧
      s.graph.length = 3 ∧
      (∀ a w, w ∈ s.graph.getD a ∅ ↔
        ∃ e ∈ [(1, 2), (2, 3)], (a + 1 = e.1 ∧ w = e.2) ∨ (a + 1 = e.2 ∧ w = e.1)) ∧
      (∀ a b, a < 3 → b < 3 → (b + 1 ∈ s.graph.getD a ∅ ↔ a + 1 ∈ s.graph.getD b ∅)) ∧
      ReadFile ColorigProblem.init (edgeFile 3 4 [(2, 3), (1, 2), (1, 2), (1, 2)])
        = some s :=
  ⟨by decide, by unfold EdgesInRange; decide, by simp; tauto,
   adjacency_symmetric 3 2 4 [(1, 2), (2, 3)] [(2, 3), (1, 2), (1, 2), (1, 2)]
     (by unfold EdgesInRange; decide) (by simp; tauto)⟩

/-- C13 (degree order of `ASC` and `DESC`). For every graph, from any
`indexes` that is a rearrangement of `0..N-1`, the ordering step with `ASC`
returns a sequence along which the degrees `graph[indexes[p]].size()` do not
decrease, and with `DESC` one along which they do not increase. -/
theorem degree_order_asc_desc (lib : StdLib) (clock : Nat → Nat) (g : GraphType)
    (indexes : List Nat) (hp : indexes.Perm (List.range g.length)) :
    (∃ l, orderIndexes lib clock SortOrder.ASC g indexes = some l ∧
      l.length = g.length ∧
      ∀ p q, p < q → q < g.length → degree g (l.getD p 0) ≤ degree g (l.getD q 0)) ∧
    (∃ l, orderIndexes lib clock SortOrder.DESC g indexes = some l ∧
      l.length = g.length ∧
      ∀ p q, p < q → q < g.length → degree g (l.getD q 0) ≤ degree g (l.getD p 0)) := by
  have hidx := mem_range_lt hp
  have hlen : ∀ comp, StrictWeakOrdering comp → (lib.sort comp indexes).length = g.length := by
    intro comp hc
    have h1 := (lib.sort_perm comp indexes hc).length_eq
    have h2 := hp.length_eq
    simp only [List.length_range] at h2
    omega
  constructor
  · refine ⟨lib.sort (compAsc g) indexes,
      by simp only [orderIndexes, sortIndexes_spec lib g _ indexes hidx],
      hlen _ (compAsc_strictWeak g), ?_⟩
    intro p q hpq hq
    have h := sorted_getD _ _ (lib.sort_sorted (compAsc g) indexes (compAsc_strictWeak g))
      p q hpq (by rw [hlen _ (compAsc_strictWeak g)]; exact hq)
    simp only [compAsc, decide_eq_false_iff_not] at h
    omega
  · refine ⟨lib.sort (compDesc g) indexes,
      by simp only [orderIndexes, sortIndexes_spec lib g _ indexes hidx],
      hlen _ (compDesc_strictWeak g), ?_⟩
    intro p q hpq hq
    have h := sorted_getD _ _ (lib.sort_sorted (compDesc g) indexes (compDesc_strictWeak g))
      p q hpq (by rw [hlen _ (compDesc_strictWeak g)]; exact hq)
    simp only [compDesc, decide_eq_false_iff_not] at h
    omega

/-- Witness of C13: the path on five vertices, insertion sort, from
`indexes = 4, 3, 2, 1, 0`; `ASC` gives `4, 0, 3, 2, 1` and `DESC` gives
`3, 2, 1, 4, 0`. -/
theorem degree_order_asc_desc_witness :
    (orderIndexes insertionLib id SortOrder.ASC [{2}, {1, 3}, {2, 4}, {3, 5}, {4}]
        [4, 3, 2, 1, 0] = some [4, 0, 3, 2, 1] ∧
      orderIndexes insertionLib id SortOrder.DESC [{2}, {1, 3}, {2, 4}, {3, 5}, {4}]
        [4, 3, 2, 1, 0] = some [3, 2, 1, 4, 0]) ∧
    [4, 3, 2, 1, 0].Perm (List.range ([{2}, {1, 3}, {2, 4}, {3, 5}, {4}] : GraphType).length) ∧
    ((∃ l, orderIndexes insertionLib id SortOrder.ASC [{2}, {1, 3}, {2, 4}, {3, 5}, {4}]
        [4, 3, 2, 1, 0] = some l ∧
      l.length = ([{2}, {1, 3}, {2, 4}, {3, 5}, {4}] : GraphType).length ∧
      ∀ p q, p < q → q < ([{2}, {1, 3}, {2, 4}, {3, 5}, {4}] : GraphType).length →
        degree [{2}, {1, 3}, {2, 4}, {3, 5}, {4}] (l.getD p 0)
          ≤ degree [{2}, {1, 3}, {2, 4}, {3, 5}, {4}] (l.getD q 0)) ∧
    (∃ l, orderIndexes insertionLib id SortOrder.DESC [{2}, {1, 3}, {2, 4}, {3, 5}, {4}]
        [4, 3, 2, 1, 0] = some l ∧
      l.length = ([{2}, {1, 3}, {2, 4}, {3, 5}, {4}] : GraphType).length ∧
      ∀ p q, p < q → q < ([{2}, {1, 3}, {2, 4}, {3, 5}, {4}] : GraphType).length →
        degree [{2}, {1, 3}, {2, 4}, {3, 5}, {4}] (l.getD q 0)
          ≤ degree [{2}, {1, 3}, {2, 4}, {3, 5}, {4}] (l.getD p 0))) :=
  ⟨by decide, by decide,
   degree_order_asc_desc insertionLib id [{2}, {1, 3}, {2, 4}, {3, 5}, {4}] [4, 3, 2, 1, 0]
     (by decide)⟩


theorem gnu_order_spec (lib : StdLib) (clock : Nat → Nat) (g : GraphType)
    (comp : Nat → Nat → Bool) (hswo : StrictWeakOrdering comp) (hN : g.length ≤ 16)
    (order : SortOrder)
    (horder : orderIndexes (gnuLib lib) clock order g (List.range g.length)
      = sortIndexes (gnuLib lib) g comp (List.range g.length))
    (hties : ∀ a b, degree g a = degree g b → comp a b = false)
    (hequiv : ∀ a b, comp a b = false → comp b a = false → degree g a = degree g b) :
    ∃ l, gnuSort comp (List.range g.length) = some l ∧
      orderIndexes (gnuLib lib) clock order g (List.range g.length) = some l ∧
      l.Perm (List.range g.length) ∧
      l.Pairwise (fun a b => comp b a = false) ∧
      TiesAscending g l ∧
      (∀ l2 : List Nat, l2.Perm (List.range g.length) →
        l2.Pairwise (fun a b => comp b a = false) → TiesAscending g l2 → l2 = l) ∧
      ∃ t, colorLoop g l (List.replicate g.length 0) 0 = some t ∧
        colorCount (gnuLib lib) clock order g = t.2 := by
  have hidx : ∀ i ∈ List.range g.length, i < g.length := fun i hi => List.mem_range.1 hi
  obtain ⟨l, hg, hsort, hperm, hsorted, hstable⟩ :=
    gnuLib_sort_short lib comp hswo (List.range g.length) (by simpa using hN)
  have hord : orderIndexes (gnuLib lib) clock order g (List.range g.length) = some l := by
    rw [horder, sortIndexes_spec (gnuLib lib) g comp _ hidx, hsort]
  have hta : TiesAscending g l := by
    intro a b hab hb hdeg
    exact hstable a b (pair_sublist_range a b g.length hab hb) (hties b a hdeg.symm)
  have hweak : ∀ l3 : List Nat, TiesAscending g l3 →
      ∀ a b, a < b → b < g.length → comp a b = false → comp b a = false →
        [a, b].Sublist l3 := by
    intro l3 h3 a b hab hb h1 h2
    exact h3 a b hab hb (hequiv a b h1 h2)
  obtain ⟨t, ht, _⟩ := colorLoop_spec g l (List.replicate g.length 0, 0)
    (mem_range_lt hperm) (colorInv_fresh g)
  refine ⟨l, hg, hord, hperm, hsorted, hta, ?_, t, ht, ?_⟩
  · intro l2 hp2 hs2 ht2
    exact stable_order_unique comp hswo g.length l2 l hp2 hperm hs2 hsorted
      (hweak l2 ht2) (hweak l hta)
  · have hrun : GreedyColoring (gnuLib lib) clock order (fresh g)
        = some { graph := g, indexes := l, colors := t.1, maxColor := t.2 } := by
      simp only [GreedyColoring, fresh, hord, ht]
    simp only [colorCount, hrun, getMaxColor]

/-- Counterexample to C14. On the graph with 17 vertices and no edges (file
`p edge 17 0`) every degree is `0`.  With the `std::sort` of libstdc++, which
partitions a range of more than 16 elements, `ASC` and `DESC` from
`indexes = 0..16` give `8, 16, 15, 14, 13, 12, 11, 10, 9, 0, 7, 6, 5, 4, 3, 2, 1`, also
through `ReadFile` and `GreedyColoring`: the vertices `1` and `2`, of equal
degree, are not in ascending order of their ids. -/
theorem ties_not_ascending_17 :
    gnuSort (compAsc (List.replicate 17 ∅)) (List.range 17)
      = some [8, 16, 15, 14, 13, 12, 11, 10, 9, 0, 7, 6, 5, 4, 3, 2, 1] ∧
    orderIndexes (gnuLib insertionLib) id SortOrder.ASC (List.replicate 17 ∅) (List.range 17)
      = some [8, 16, 15, 14, 13, 12, 11, 10, 9, 0, 7, 6, 5, 4, 3, 2, 1] ∧
    orderIndexes (gnuLib insertionLib) id SortOrder.DESC (List.replicate 17 ∅) (List.range 17)
      = some [8, 16, 15, 14, 13, 12, 11, 10, 9, 0, 7, 6, 5, 4, 3, 2, 1] ∧
    (ReadFile ColorigProblem.init (edgeFile 17 0 [])).bind
        (fun s => (GreedyColoring (gnuLib insertionLib) id SortOrder.ASC s).map
          (fun s1 => s1.indexes))
      = some [8, 16, 15, 14, 13, 12, 11, 10, 9, 0, 7, 6, 5, 4, 3, 2, 1] ∧
    ¬ TiesAscending (List.replicate 17 ∅)
        [8, 16, 15, 14, 13, 12, 11, 10, 9, 0, 7, 6, 5, 4, 3, 2, 1] :=
  ⟨by decide, by decide, by decide, by decide,
   fun h => absurd (h 1 2 (by decide) (by decide) (by decide)) (by decide)⟩

/-- C14 as amended. With the `std::sort` of libstdc++, for every graph with
at most 16 vertices the `ASC` and `DESC` orderings started from
`indexes = 0..N-1` are stable sorts: the result is what `gnuSort` returns, a
rearrangement of `0..N-1` sorted by degree in which any two vertices of equal
degree appear in ascending order of their ids.  It is the only such
rearrangement, so the permutation is determined by the graph, and the colour
count is that of the colouring loop on it. -/
theorem asc_desc_stable_upto16 (lib : StdLib) (clock : Nat → Nat) (g : GraphType)
    (hN : g.length ≤ 16) :
    (∃ l, gnuSort (compAsc g) (List.range g.length) = some l ∧
      orderIndexes (gnuLib lib) clock SortOrder.ASC g (List.range g.length) = some l ∧
      l.Perm (List.range g.length) ∧
      l.Pairwise (fun a b => degree g a ≤ degree g b) ∧
      TiesAscending g l ∧
      (∀ l2 : List Nat, l2.Perm (List.range g.length) →
        l2.Pairwise (fun a b => degree g a ≤ degree g b) → TiesAscending g l2 → l2 = l) ∧
      ∃ t, colorLoop g l (List.replicate g.length 0) 0 = some t ∧
        colorCount (gnuLib lib) clock SortOrder.ASC g = t.2) ∧
    (∃ l, gnuSort (compDesc g) (List.range g.length) = some l ∧
      orderIndexes (gnuLib lib) clock SortOrder.DESC g (List.range g.length) = some l ∧
      l.Perm (List.range g.length) ∧
      l.Pairwise (fun a b => degree g b ≤ degree g a) ∧
      TiesAscending g l ∧
      (∀ l2 : List Nat, l2.Perm (List.range g.length) →
        l2.Pairwise (fun a b => degree g b ≤ degree g a) → TiesAscending g l2 → l2 = l) ∧
      ∃ t, colorLoop g l (List.replicate g.length 0) 0 = some t ∧
        colorCount (gnuLib lib) clock SortOrder.DESC g = t.2) := by
  constructor
  · obtain ⟨l, h1, h2, h3, h4, h5, h6, h7⟩ := gnu_order_spec lib clock g (compAsc g)
      (compAsc_strictWeak g) hN SortOrder.ASC rfl
      (by
        intro a b hab
        simp only [compAsc, decide_eq_false_iff_not]
        omega)
      (by
        intro a b hab hba
        simp only [compAsc, decide_eq_false_iff_not] at hab hba
        omega)
    refine ⟨l, h1, h2, h3, ?_, h5, ?_, h7⟩
    · refine h4.imp ?_
      intro a b hab
      simp only [compAsc, decide_eq_false_iff_not] at hab
      omega
    · intro l2 hp2 hs2 ht2
      refine h6 l2 hp2 (hs2.imp ?_) ht2
      intro a b hab
      simp only [compAsc, decide_eq_false_iff_not]
      omega
  · obtain ⟨l, h1, h2, h3, h4, h5, h6, h7⟩ := gnu_order_spec lib clock g (compDesc g)
      (compDesc_strictWeak g) hN SortOrder.DESC rfl
      (by
        intro a b hab
        simp only [compDesc, decide_eq_false_iff_not]
        omega)
      (by
        intro a b hab hba
        simp only [compDesc, decide_eq_false_iff_not] at hab hba
        omega)
    refine ⟨l, h1, h2, h3, ?_, h5, ?_, h7⟩
    · refine h4.imp ?_
      intro a b hab
      simp only [compDesc, decide_eq_false_iff_not] at hab
      omega
    · intro l2 hp2 hs2 ht2
      refine h6 l2 hp2 (hs2.imp ?_) ht2
      intro a b hab
      simp only [compDesc, decide_eq_false_iff_not]
      omega

/-- Witness of C14 as amended: the graph with the edges `1 3`, `1 4`, `2 3`
(degrees `2, 1, 2, 1`); `ASC` gives `1, 3, 0, 2` and `DESC` gives
`0, 2, 1, 3`. -/
theorem asc_desc_stable_upto16_witness :
    (orderIndexes (gnuLib insertionLib) id SortOrder.ASC [{3, 4}, {3}, {1, 2}, {1}]
        (List.range 4) = some [1, 3, 0, 2] ∧
      orderIndexes (gnuLib insertionLib) id SortOrder.DESC [{3, 4}, {3}, {1, 2}, {1}]
        (List.range 4) = some [0, 2, 1, 3]) ∧
    ([{3, 4}, {3}, {1, 2}, {1}] : GraphType).length ≤ 16 ∧
    ∃ l, gnuSort (compAsc [{3, 4}, {3}, {1, 2}, {1}])
        (List.range ([{3, 4}, {3}, {1, 2}, {1}] : GraphType).length) = some l ∧
      orderIndexes (gnuLib insertionLib) id SortOrder.ASC [{3, 4}, {3}, {1, 2}, {1}]
        (List.range ([{3, 4}, {3}, {1, 2}, {1}] : GraphType).length) = some l ∧
      TiesAscending [{3, 4}, {3}, {1, 2}, {1}] l :=
  ⟨by decide, by decide,
   (asc_desc_stable_upto16 insertionLib id [{3, 4}, {3}, {1, 2}, {1}] (by decide)).1.elim
     (fun l h => ⟨l, h.1, h.2.1, h.2.2.2.2.1⟩)⟩

/-- C15 at its failing inputs. On a graph of `N` vertices without edges the
sorted sequence is one run of equal degree, and for every library and clock
`DESC_SHUFFLE` and `ASC_SHUFFLE` leave in `indexes` exactly what `DESC` and
`ASC` leave: the run is never shuffled.  On every graph `g`, for both orders,
the sort returns a sequence `sorted` and the bucket loop a sequence `l`, and
there is a position `lb` (a vertex position when the graph has vertices) from
which `sorted` is one run of equal degree to its end, at which that run
starts, and from which `l` is exactly `sorted`: the last maximal run is
never shuffled, whatever the shuffle does.  On the path `1-2-3-4-5` (degrees
`1, 2, 2, 2, 1`), with the sort of libstdc++ and a shuffle that rotates its
range by one place, the sorted sequence is `1, 2, 3, 0, 4` and
`DESC_SHUFFLE` leaves `2, 3, 1, 0, 4`: the run `1, 2, 3` is shuffled, the
run `0, 4` is not. -/
theorem last_bucket_not_shuffled (lib : StdLib) (clock : Nat → Nat) (N : Nat)
    (g : GraphType) :
    orderIndexes lib clock SortOrder.DESC_SHUFFLE (List.replicate N ∅) (List.range N)
      = orderIndexes lib clock SortOrder.DESC (List.replicate N ∅) (List.range N) ∧
    orderIndexes lib clock SortOrder.ASC_SHUFFLE (List.replicate N ∅) (List.range N)
      = orderIndexes lib clock SortOrder.ASC (List.replicate N ∅) (List.range N) ∧
    (∃ sorted l lb,
      orderIndexes lib clock SortOrder.DESC g (List.range g.length) = some sorted ∧
      orderIndexes lib clock SortOrder.DESC_SHUFFLE g (List.range g.length) = some l ∧
      lb ≤ g.length ∧ (1 ≤ g.length → lb < g.length) ∧
      l.drop lb = sorted.drop lb ∧
      (∀ j, lb ≤ j → j < g.length →
        degree g (sorted.getD j 0) = degree g (sorted.getD lb 0)) ∧
      (lb = 0 ∨ degree g (sorted.getD (lb - 1) 0) ≠ degree g (sorted.getD lb 0))) ∧
    (∃ sorted l lb,
      orderIndexes lib clock SortOrder.ASC g (List.range g.length) = some sorted ∧
      orderIndexes lib clock SortOrder.ASC_SHUFFLE g (List.range g.length) = some l ∧
      lb ≤ g.length ∧ (1 ≤ g.length → lb < g.length) ∧
      l.drop lb = sorted.drop lb ∧
      (∀ j, lb ≤ j → j < g.length →
        degree g (sorted.getD j 0) = degree g (sorted.getD lb 0)) ∧
      (lb = 0 ∨ degree g (sorted.getD (lb - 1) 0) ≠ degree g (sorted.getD lb 0))) ∧
    sortIndexes (gnuLib insertionLib) [{2}, {1, 3}, {2, 4}, {3, 5}, {4}]
        (compDesc [{2}, {1, 3}, {2, 4}, {3, 5}, {4}]) (List.range 5) = some [1, 2, 3, 0, 4] ∧
    orderIndexes (gnuLib insertionLib) (fun _ => 1) SortOrder.DESC_SHUFFLE
        [{2}, {1, 3}, {2, 4}, {3, 5}, {4}] (List.range 5) = some [2, 3, 1, 0, 4] := by
  have hlen : (List.replicate N (∅ : Finset Nat)).length = N := List.length_replicate _ _
  have hidx : ∀ i ∈ List.range N, i < (List.replicate N (∅ : Finset Nat)).length := by
    intro i hi
    rw [hlen]
    exact List.mem_range.1 hi
  have hdeg : ∀ a, degree (List.replicate N (∅ : Finset Nat)) a = 0 := by
    intro a
    simp only [degree, List.getD_eq_getElem?_getD, List.getElem?_replicate]
    split <;> rfl
  have hconst : ∀ (comp : Nat → Nat → Bool), StrictWeakOrdering comp →
      bucketShuffle lib clock (List.replicate N ∅) (lib.sort comp (List.range N))
        = some (lib.sort comp (List.range N)) := by
    intro comp hc
    apply bucketShuffle_const
    · intro i hi
      exact hidx i ((lib.sort_perm comp _ hc).subset hi)
    · intro a _ b _
      rw [hdeg a, hdeg b]
  have hgidx : ∀ i ∈ List.range g.length, i < g.length := fun i hi => List.mem_range.1 hi
  have htail : ∀ (comp : Nat → Nat → Bool), StrictWeakOrdering comp →
      ∃ l lb, bucketShuffle lib clock g (lib.sort comp (List.range g.length)) = some l ∧
        lb ≤ g.length ∧ (1 ≤ g.length → lb < g.length) ∧
        l.drop lb = (lib.sort comp (List.range g.length)).drop lb ∧
        (∀ j, lb ≤ j → j < g.length →
          degree g ((lib.sort comp (List.range g.length)).getD j 0)
            = degree g ((lib.sort comp (List.range g.length)).getD lb 0)) ∧
        (lb = 0 ∨ degree g ((lib.sort comp (List.range g.length)).getD (lb - 1) 0)
          ≠ degree g ((lib.sort comp (List.range g.length)).getD lb 0)) := by
    intro comp hc
    have hp := lib.sort_perm comp (List.range g.length) hc
    have hl : (lib.sort comp (List.range g.length)).length = g.length := by
      simpa using hp.length_eq
    obtain ⟨l, lb, h1, h2, h3, h4, h5, h6⟩ := bucketShuffle_tail lib clock g
      (lib.sort comp (List.range g.length)) (fun i hi => hgidx i (hp.subset hi))
    rw [hl] at h2 h3 h5
    exact ⟨l, lb, h1, h2, h3, h4, h5, h6⟩
  refine ⟨?_, ?_, ?_, ?_, by decide, by decide⟩
  · simp only [orderIndexes, sortIndexes_spec lib _ _ _ hidx,
      hconst _ (compDesc_strictWeak _)]
  · simp only [orderIndexes, sortIndexes_spec lib _ _ _ hidx,
      hconst _ (compAsc_strictWeak _)]
  · obtain ⟨l, lb, h1, h2, h3, h4, h5, h6⟩ := htail (compDesc g) (compDesc_strictWeak g)
    refine ⟨_, l, lb, ?_, ?_, h2, h3, h4, h5, h6⟩
    · simp only [orderIndexes, sortIndexes_spec lib g _ _ hgidx]
    · simp only [orderIndexes, sortIndexes_spec lib g _ _ hgidx, h1]
  · obtain ⟨l, lb, h1, h2, h3, h4, h5, h6⟩ := htail (compAsc g) (compAsc_strictWeak g)
    refine ⟨_, l, lb, ?_, ?_, h2, h3, h4, h5, h6⟩
    · simp only [orderIndexes, sortIndexes_spec lib g _ _ hgidx]
    · simp only [orderIndexes, sortIndexes_spec lib g _ _ hgidx, h1]

/-! ## A second attempt without reset, and safety of the vector accesses -/

theorem stateInv_reset (s : ColorigProblem) (hs : StateInv s) :
    StateInv (resetResults s) ∧ (resetResults s).graph = s.graph := by
  obtain ⟨h1, h2, _⟩ := hs
  refine ⟨⟨?_, ?_, ?_⟩, rfl⟩
  · simp only [resetResults, List.length_replicate, h1]
  · simp only [resetResults, List.length_range, h2]
  · simp only [resetResults, h2]
    exact List.Perm.refl _

/-- C20 (safety). `ReadFile` on a well-formed file establishes the state
invariant (`graph`, `colors`, `indexes` of length `N`, `indexes` a
rearrangement of `0..N-1`).  Under the invariant, for every library, clock
and `SortOrder` and every `N`, `0` included, `GreedyColoring` returns a
state: in the embedding an access outside a vector makes it return nothing,
so every access `graph[left]`, `graph[right]`, `indexes[lb]`,
`graph[indexes[lb]]`, `indexes[i]`, `graph[indexes[i]]`, `colors[i]`,
`graph[i]`, `colors[node]`, `graph[node]` is in bounds.  The invariant holds
after `GreedyColoring` and after `resetResults`, and neither changes
`graph`. -/
theorem state_invariant_safe (lib : StdLib) (clock : Nat → Nat) (order : SortOrder)
    (s : ColorigProblem) (hs : StateInv s) :
    (∃ s1, GreedyColoring lib clock order s = some s1 ∧
      StateInv s1 ∧ s1.graph = s.graph ∧
      StateInv (resetResults s1) ∧ (resetResults s1).graph = s.graph) ∧
    (StateInv (resetResults s) ∧ (resetResults s).graph = s.graph) ∧
    (∀ (N M : Nat) (edges : List (Nat × Nat)), EdgesInRange N edges →
      ∃ s0, ReadFile ColorigProblem.init (edgeFile N M edges) = some s0 ∧
        StateInv s0 ∧ s0.graph.length = N) := by
  obtain ⟨h1, h2, h3⟩ := hs
  refine ⟨?_, stateInv_reset s ⟨h1, h2, h3⟩, ?_⟩
  · obtain ⟨idx, hidx, hp⟩ := orderIndexes_spec lib clock order s.graph s.indexes
      (mem_range_lt h3)
    have hp2 : idx.Perm (List.range s.graph.length) := hp.trans h3
    obtain ⟨t, ht, hl⟩ := colorLoop_safe s.graph idx s.colors s.maxColor
      (mem_range_lt hp2) h1
    have hinv : StateInv { s with indexes := idx, colors := t.1, maxColor := t.2 } :=
      ⟨hl, by simpa using hp2.length_eq, hp2⟩
    refine ⟨{ s with indexes := idx, colors := t.1, maxColor := t.2 }, ?_, hinv, rfl,
      (stateInv_reset _ hinv).1, rfl⟩
    simp only [GreedyColoring, hidx, ht]
  · intro N M edges hE
    obtain ⟨g, hread, hlen, _⟩ := ReadFile_spec N M edges hE
    refine ⟨fresh g, hread, ⟨?_, ?_, ?_⟩, hlen⟩
    · simp only [fresh, List.length_replicate]
    · simp only [fresh, List.length_range]
    · exact List.Perm.refl _

/-- Witness of C20: the state without vertices (`N = 0`), and the triangle
with a pendant vertex in a state that is not fresh. -/
theorem state_invariant_safe_witness :
    (StateInv ColorigProblem.init ∧
      ∃ s1, GreedyColoring insertionLib id SortOrder.DESC_SHUFFLE ColorigProblem.init
          = some s1 ∧ StateInv s1) ∧
    (StateInv { graph := [{2, 3}, {1, 3}, {1, 2, 4}, {3}], indexes := [2, 0, 3, 1],
                colors := [0, 5, 0, 1], maxColor := 7 } ∧
      ∃ s1, GreedyColoring insertionLib id SortOrder.ASC_SHUFFLE
          { graph := [{2, 3}, {1, 3}, {1, 2, 4}, {3}], indexes := [2, 0, 3, 1],
            colors := [0, 5, 0, 1], maxColor := 7 } = some s1 ∧ StateInv s1) :=
  ⟨⟨⟨rfl, rfl, List.Perm.refl _⟩,
    (state_invariant_safe insertionLib id SortOrder.DESC_SHUFFLE ColorigProblem.init
      ⟨rfl, rfl, List.Perm.refl _⟩).1.elim (fun s1 h => ⟨s1, h.1, h.2.1⟩)⟩,
   ⟨⟨rfl, rfl, by decide⟩,
    (state_invariant_safe insertionLib id SortOrder.ASC_SHUFFLE
      { graph := [{2, 3}, {1, 3}, {1, 2, 4}, {3}], indexes := [2, 0, 3, 1],
        colors := [0, 5, 0, 1], maxColor := 7 }
      ⟨rfl, rfl, by decide⟩).1.elim (fun s1 h => ⟨s1, h.1, h.2.1⟩)⟩⟩

end GreedyGraphColoring
